import Mathlib

/-!
Verification of the price-search aggregation and geocoding pipeline
(`/v1/prices/search`, one-file Express backend).

The JavaScript/TypeScript source is shallowly embedded as follows:

* Strings are `String` / `List Char`; the ASCII fragments of the JS regexes
  and of `toLowerCase` / `toUpperCase` are modelled exactly (the merchant
  labels, patterns and brand tables in the source are all ASCII).
* JS numbers occurring as prices are modelled by `ℚ`.  Provider prices come
  out of `res.json()`, and JSON numbers are always finite, so neither `NaN`
  nor infinities can occur as `extracted_price`; `parsePrice` of a string is
  likewise always finite or `null` (modelled by `Option ℚ`).
* The external collaborators (shopping-search fetch, the two geocoding
  fetches, URL parsing) are modelled by explicit outcome parameters, so a
  theorem quantifying over them covers every behaviour of the network.
* `async`/`await` control flow is sequentialized; a rejected promise is an
  `Except.error`.
-/

/-! ### Character classes (ASCII semantics of the JS regexes) -/

/-- The JS whitespace class of the regexes in the source, restricted to the
ASCII characters that can occur in merchant labels. -/
def isWSChar (c : Char) : Bool :=
  c = ' ' || c = '\t' || c = '\n' || c = '\r' || c = '\x0b' || c = '\x0c'

/-- A decimal digit, the regex class in the source. -/
def isDigitChar (c : Char) : Bool :=
  '0' ≤ c && c ≤ '9'

/-- The regex word-character class of the source's patterns. -/
def isWordChar (c : Char) : Bool :=
  ('a' ≤ c && c ≤ 'z') || ('A' ≤ c && c ≤ 'Z') || isDigitChar c || c = '_'

/-- ASCII `toUpperCase`, as applied by the title-casing replacement
in `normalizeStoreName`. -/
def upChar : Char → Char
  | 'a' => 'A' | 'b' => 'B' | 'c' => 'C' | 'd' => 'D' | 'e' => 'E'
  | 'f' => 'F' | 'g' => 'G' | 'h' => 'H' | 'i' => 'I' | 'j' => 'J'
  | 'k' => 'K' | 'l' => 'L' | 'm' => 'M' | 'n' => 'N' | 'o' => 'O'
  | 'p' => 'P' | 'q' => 'Q' | 'r' => 'R' | 's' => 'S' | 't' => 'T'
  | 'u' => 'U' | 'v' => 'V' | 'w' => 'W' | 'x' => 'X' | 'y' => 'Y'
  | 'z' => 'Z'
  | c => c

/-- ASCII `toLowerCase`, used for the dedupe key and the case-insensitive
regex tests. -/
def lowChar : Char → Char
  | 'A' => 'a' | 'B' => 'b' | 'C' => 'c' | 'D' => 'd' | 'E' => 'e'
  | 'F' => 'f' | 'G' => 'g' | 'H' => 'h' | 'I' => 'i' | 'J' => 'j'
  | 'K' => 'k' | 'L' => 'l' | 'M' => 'm' | 'N' => 'n' | 'O' => 'o'
  | 'P' => 'p' | 'Q' => 'q' | 'R' => 'r' | 'S' => 's' | 'T' => 't'
  | 'U' => 'u' | 'V' => 'v' | 'W' => 'w' | 'X' => 'x' | 'Y' => 'y'
  | 'Z' => 'z'
  | c => c

/-- `toLowerCase` on a character list. -/
def lowerStr (l : List Char) : List Char := l.map lowChar

/-- Case-insensitive prefix test (the `/i` flag on an anchored pattern). -/
def isPrefixCI (pat : List Char) (l : List Char) : Bool :=
  pat.isPrefixOf (lowerStr l)

/-- Case-insensitive suffix test (`/pat$/i`). -/
def endsWithCI (suf : List Char) (l : List Char) : Bool :=
  suf.isSuffixOf (lowerStr l)

/-! ### `normalizeStoreName` (source lines 116-134), stage by stage -/

/-- Stage 1: `.replace(/\.ca$|\.com$|\.net$|\.org$/i, "")`.  The four
alternatives are anchored at the end of the string and mutually exclusive,
so the non-global replace removes exactly the matching suffix, if any. -/
def stripTLD (l : List Char) : List Char :=
  if endsWithCI ".ca".data l then l.take (l.length - 3)
  else if endsWithCI ".com".data l then l.take (l.length - 4)
  else if endsWithCI ".net".data l then l.take (l.length - 4)
  else if endsWithCI ".org".data l then l.take (l.length - 4)
  else l

/-- Stage 2: `.replace(/supercentre|supercenter/gi, "")`: a single
left-to-right pass removing each non-overlapping 11-character match.  The
first argument counts characters of a recognised match still to be
discarded (after a match at `c :: rest` the head is consumed and the
remaining 10 characters are skipped through the counter). -/
def removeSuperAux : Nat → List Char → List Char
  | 0, [] => []
  | 0, c :: rest =>
    if isPrefixCI "supercentre".data (c :: rest)
        || isPrefixCI "supercenter".data (c :: rest) then
      removeSuperAux 10 rest
    else c :: removeSuperAux 0 rest
  | _ + 1, [] => []
  | k + 1, _ :: rest => removeSuperAux k rest

/-- Stage 2, at the start of the scan. -/
def removeSuper (l : List Char) : List Char := removeSuperAux 0 l

/-- Stage 3: the global replace of each hyphen by a space. -/
def mapHyphen (l : List Char) : List Char :=
  l.map (fun c => if c = '-' then ' ' else c)

/-- Length of the corporate-suffix token (`inc`, `ltd` or `corp`,
case-insensitively) at the head of the list, if present.  The three
alternatives start with distinct letters, so at most one applies. -/
def corpTok (l : List Char) : Option Nat :=
  if isPrefixCI "inc".data l then some 3
  else if isPrefixCI "ltd".data l then some 3
  else if isPrefixCI "corp".data l then some 4
  else none

/-- Match of `(inc|ltd|corp)\.?\b` at the head of the list, assuming the
boundary before the position already holds.  Returns the number of matched
characters and whether the character just before the continuation point is a
word character (the last matched character: a letter unless the optional dot
was consumed, and the greedy `\.?` consumes the dot exactly when the boundary
after it holds, i.e. when a word character follows the dot). -/
def corpMatch (l : List Char) : Option (Nat × Bool) :=
  match corpTok l with
  | none => none
  | some k =>
    match l.drop k with
    | [] => some (k, true)
    | ['.'] => some (k, true)
    | '.' :: d :: _ => if isWordChar d then some (k + 1, false) else some (k, true)
    | e :: _ => if isWordChar e then none else some (k, true)

/-- Stage 4: `.replace(/\binc\.?\b|\bltd\.?\b|\bcorp\.?\b/gi, "")`: a scan
carrying the word-ness of the previous character of the original string
(all the `\b` assertion depends on).  The first argument counts characters
of a recognised match still to be discarded: after an `m`-character match at
`c :: rest` the head is consumed and the remaining `m - 1` characters are
skipped through the counter, with the boolean pinned to the word-ness of the
match's final character as reported by `corpMatch`. -/
def rmCorpA : Nat → Bool → List Char → List Char
  | 0, _, [] => []
  | 0, prevWord, c :: rest =>
    if prevWord then c :: rmCorpA 0 (isWordChar c) rest
    else
      match corpMatch (c :: rest) with
      | some (m, pw) => rmCorpA (m - 1) pw rest
      | none => c :: rmCorpA 0 (isWordChar c) rest
  | _ + 1, _, [] => []
  | k + 1, pw, _ :: rest => rmCorpA k pw rest

/-- Stage 4, at the start of the scan (start of string: no previous word
character). -/
def rmCorpAux (prevWord : Bool) (l : List Char) : List Char :=
  rmCorpA 0 prevWord l

/-- State of the whitespace-collapsing scan: outside any whitespace run,
exactly one whitespace character `c` pending, or inside a run of length at
least two whose single replacement space has already been emitted. -/
inductive WSState where
  | out : WSState
  | one : Char → WSState
  | many : WSState

/-- Stage 5: `.replace(/\s{2,}/g, " ")` — each maximal run of two or more
whitespace characters becomes a single space; a lone whitespace character is
kept as it is.  Scanning automaton over the characters. -/
def collapseAux : WSState → List Char → List Char
  | .out, [] => []
  | .one c, [] => [c]
  | .many, [] => []
  | .out, x :: rest =>
    if isWSChar x then collapseAux (.one x) rest else x :: collapseAux .out rest
  | .one c, x :: rest =>
    if isWSChar x then ' ' :: collapseAux .many rest
    else c :: x :: collapseAux .out rest
  | .many, x :: rest =>
    if isWSChar x then collapseAux .many rest else x :: collapseAux .out rest

/-- Stage 5, at the start of the scan. -/
def collapseWS (l : List Char) : List Char := collapseAux .out l

/-- Removal of a trailing whitespace run (the right half of `.trim()`). -/
def dropEndWS : List Char → List Char
  | [] => []
  | c :: rest =>
    match dropEndWS rest with
    | [] => if isWSChar c then [] else [c]
    | r => c :: r

/-- Stage 6: `.trim()`. -/
def trimWS (l : List Char) : List Char :=
  dropEndWS (l.dropWhile isWSChar)

/-! ### The case-insensitive containment tests of the brand-override table -/

/-- Plain substring test (pattern already lowercased, list pre-lowercased). -/
def containsSub (pat : List Char) : List Char → Bool
  | [] => pat.isEmpty
  | c :: rest => pat.isPrefixOf (c :: rest) || containsSub pat rest

/-- `/pat/i.test(l)` for a literal pattern. -/
def containsCI (pat : List Char) (l : List Char) : Bool :=
  containsSub pat (lowerStr l)

/-- Skip a whitespace run (`\s*`). -/
def skipWS (l : List Char) : List Char := l.dropWhile isWSChar

/-- Match a sequence of literal tokens joined by `\s*` at the head of the
list.  The tokens start with letters, so the greedy whitespace skip is
equivalent to the regex backtracking semantics. -/
def matchToks : List (List Char) → List Char → Bool
  | [], _ => true
  | t :: ts, l => t.isPrefixOf l && matchToks ts (skipWS (l.drop t.length))

/-- Containment of a `\s*`-joined token pattern, tried at every position. -/
def containsToksAux (toks : List (List Char)) : List Char → Bool
  | [] => matchToks toks []
  | c :: rest => matchToks toks (c :: rest) || containsToksAux toks rest

/-- `/t1\s*t2\s*.../i.test(l)`. -/
def containsToksCI (toks : List (List Char)) (l : List Char) : Bool :=
  containsToksAux toks (lowerStr l)

/-- The six sequential brand-override `if` statements of
`normalizeStoreName`, in source order; each test runs on the current value
of `normalized`. -/
def applyOverrides (l : List Char) : List Char :=
  let l1 := if containsCI "walmart".data l then "Walmart".data else l
  let l2 := if containsCI "amazon".data l1 then "Amazon".data else l1
  let l3 := if containsCI "costco".data l2 then "Costco".data else l2
  let l4 := if containsToksCI ["london".data, "drugs".data] l3 then
      "London Drugs".data else l3
  let l5 := if containsToksCI ["save".data, "on".data, "foods".data] l4 then
      "Save On Foods".data else l4
  if containsCI "superstore".data l5 then "Superstore".data else l5

/-- Final stage: `.replace(/\b\w/g, (c) => c.toUpperCase())` — uppercase
every word character that sits at a word boundary; the scan carries the
word-ness of the previous character of the original string. -/
def titleCase (prevWord : Bool) : List Char → List Char
  | [] => []
  | c :: rest =>
    (if !prevWord && isWordChar c then upChar c else c) ::
      titleCase (isWordChar c) rest

/-- `normalizeStoreName` (source lines 116-134) on character lists. -/
def normChars (l : List Char) : List Char :=
  titleCase false (applyOverrides (trimWS (collapseWS
    (rmCorpAux false (mapHyphen (removeSuper (stripTLD l)))))))

/-- `normalizeStoreName` (source lines 116-134). -/
def normalizeStoreName (s : String) : String :=
  String.mk (normChars s.data)

/-! ### Predicates used to specify the shape of canonical names -/

/-- No two adjacent whitespace characters. -/
def wsRunFree : List Char → Bool
  | [] => true
  | [_] => true
  | a :: b :: rest => (!(isWSChar a && isWSChar b)) && wsRunFree (b :: rest)

/-- The first character, if any, is not whitespace. -/
def headNotWS : List Char → Bool
  | [] => true
  | c :: _ => !isWSChar c

/-- The last character, if any, is not whitespace. -/
def lastNotWS : List Char → Bool
  | [] => true
  | [c] => !isWSChar c
  | _ :: c :: rest => lastNotWS (c :: rest)

/-- The ASCII case table: the (lowercase, uppercase) pairs exchanged by
`upChar` and `lowChar`. -/
def asciiCasePairs : List (Char × Char) :=
  [('a', 'A'), ('b', 'B'), ('c', 'C'), ('d', 'D'), ('e', 'E'), ('f', 'F'),
   ('g', 'G'), ('h', 'H'), ('i', 'I'), ('j', 'J'), ('k', 'K'), ('l', 'L'),
   ('m', 'M'), ('n', 'N'), ('o', 'O'), ('p', 'P'), ('q', 'Q'), ('r', 'R'),
   ('s', 'S'), ('t', 'T'), ('u', 'U'), ('v', 'V'), ('w', 'W'), ('x', 'X'),
   ('y', 'Y'), ('z', 'Z')]

/-! ### Data model -/

/-- `Row` (source lines 49-56).  Prices are rationals: every price reaching
a `Row` comes from a JSON number or from `parsePrice`, hence is finite.
`distance_km` is a rational extended with the `Number.POSITIVE_INFINITY`
sentinel. -/
structure Row where
  store : String
  price : ℚ
  location : String
  lat : Option ℚ
  lng : Option ℚ
  distance_km : Option (WithTop ℚ)
deriving DecidableEq

/-- `GeoHit` (source line 58). -/
structure GeoHit where
  address : String
  lat : Option ℚ
  lng : Option ℚ
deriving DecidableEq

/-- `toLowerCase` on strings (ASCII). -/
def lowerString (s : String) : String := String.mk (lowerStr s.data)

/-- The deduplication key `r.store.toLowerCase()`. -/
def rowKey (r : Row) : String := lowerString r.store

/-! ### `dedupeCheapest` (source lines 145-152)

A JS `Map` keeps keys in insertion order; `set` on an existing key updates
the value in place, and `values()` iterates in key-insertion order.  The
`Map` is embedded as an association list in key-insertion order. -/

/-- `Map.get`. -/
def alookup {α : Type} (k : String) : List (String × α) → Option α
  | [] => none
  | (k', v) :: rest => if k' = k then some v else alookup k rest

/-- `Map.set` on a key that is already present (value replaced in place,
key order unchanged). -/
def aupdate {α : Type} (k : String) (v : α) : List (String × α) → List (String × α)
  | [] => []
  | (k', v') :: rest =>
    if k' = k then (k', v) :: rest else (k', v') :: aupdate k v rest

/-- One iteration of the `dedupeCheapest` loop:
`if (!by.has(k) || r.price < by.get(k)!.price) by.set(k, r)`. -/
def dedupeStep (m : List (String × Row)) (r : Row) : List (String × Row) :=
  match alookup (rowKey r) m with
  | none => m ++ [(rowKey r, r)]
  | some old => if r.price < old.price then aupdate (rowKey r) r m else m

/-- `dedupeCheapest` (source lines 145-152). -/
def dedupeCheapest (rows : List Row) : List Row :=
  (rows.foldl dedupeStep []).map Prod.snd

/-- The projection of the `dedupeCheapest` fold onto a single key `k`: the
running cheapest row with that key, first-seen winning ties (the strict `<`
of the loop).  Used to specify what `dedupeCheapest` keeps per key. -/
def foldKey (k : String) (o : Option Row) : List Row → Option Row
  | [] => o
  | r :: rest =>
    foldKey k
      (if rowKey r = k then
        match o with
        | none => some r
        | some c => if r.price < c.price then some r else some c
      else o) rest

/-! ### `parsePrice` (source lines 136-143) -/

/-- The `price` field of a provider listing: a JSON number, a string with
currency noise, or a nullish / other-typed value. -/
inductive JSPrice where
  | num (q : ℚ)
  | str (s : String)
  | absent
deriving DecidableEq

/-- Value of a digit string (most significant digit first). -/
def natVal (l : List Char) : Nat :=
  l.foldl (fun acc c => 10 * acc + (c.toNat - '0'.toNat)) 0

/-- Split at every dot (like `String.split(".")`): `n` dots give `n + 1`
parts. -/
def splitDot : List Char → List (List Char)
  | [] => [[]]
  | c :: rest =>
    let r := splitDot rest
    if c = '.' then [] :: r
    else
      match r with
      | [] => [[c]]
      | p :: ps => (c :: p) :: ps

/-- JS `Number()` on a string consisting only of digits and dots:
the empty string is `0`, one optional dot separates the integer and
fractional parts, and two or more dots (or a lone dot) give `NaN`,
modelled as `none`. -/
def jsNumOfStripped (l : List Char) : Option ℚ :=
  if l.isEmpty then some 0
  else
    match splitDot l with
    | [ip] => some (natVal ip : ℚ)
    | [ip, fp] =>
      if ip.isEmpty && fp.isEmpty then none
      else some ((natVal ip : ℚ) + (natVal fp : ℚ) / (10 : ℚ) ^ fp.length)
    | _ => none

/-- `parsePrice` (source lines 136-143): a number is returned unchanged, a
string is stripped of every character other than digits and dots and fed to
`Number()` (with the `Number.isFinite` guard turning `NaN` into `null`),
anything else is `null`. -/
def parsePrice : JSPrice → Option ℚ
  | .num q => some q
  | .str s => jsNumOfStripped (s.data.filter (fun c => isDigitChar c || c = '.'))
  | .absent => none

/-! ### Online-only blocklist (source lines 63-95) -/

/-- Anchored pattern `/^pat/i` on a pre-lowercased string. -/
def patStarts (pat : List Char) (l : List Char) : Bool := pat.isPrefixOf l

/-- Unanchored token pattern `/t1\s*t2.../i` on a pre-lowercased string. -/
def patToks (toks : List (List Char)) (l : List Char) : Bool :=
  containsToksAux toks l

/-- `ONLINE_ONLY_PATTERNS` (source lines 63-81), in order. -/
def ONLINE_ONLY_PATTERNS : List (List Char → Bool) :=
  [ patStarts "ebay".data,
    patStarts "amazon".data,
    patStarts "etsy".data,
    patStarts "redbubble".data,
    patStarts "teepublic".data,
    patStarts "teespring".data,
    patStarts "aliexpress".data,
    patStarts "wish".data,
    patStarts "shein".data,
    patStarts "temu".data,
    patToks ["uber".data, "eats".data],
    patToks ["door".data, "dash".data],
    patStarts "instacart".data,
    patStarts "grubhub".data,
    patToks ["skip".data, "the".data, "dishes".data],
    patStarts "walmart.com".data,
    patStarts "target.com".data ]

/-- `isOnlineOnlyStore` (source lines 83-95): each pattern is tested against
both the lowercased-and-trimmed raw label and the lowercased-and-trimmed
canonical name. -/
def isOnlineOnlyStore (rawStore normalizedStore : String) : Bool :=
  let rawLower := trimWS (lowerStr rawStore.data)
  let normLower := trimWS (lowerStr normalizedStore.data)
  ONLINE_ONLY_PATTERNS.any (fun p => p rawLower || p normLower)

/-! ### `domainFromUrl` (source lines 106-114) and the rough-row loop
(source lines 302-317) -/

/-- `hostname.replace(/^www\./, "")` (case-sensitive, at most once). -/
def stripWWW (h : String) : String :=
  if "www.".data.isPrefixOf h.data then String.mk (h.data.drop 4) else h

/-- `domainFromUrl` (source lines 106-114).  `uh` abstracts the platform's
`new URL(urlStr).hostname`, with `none` for a parse failure (the `catch`
branch); a nullish or empty `urlStr` is falsy and short-circuits to `null`. -/
def domainFromUrl (uh : String → Option String) (u : Option String) : Option String :=
  match u with
  | none => none
  | some s =>
    if s = "" then none
    else
      match uh s with
      | none => none
      | some h => some (stripWWW h)

/-- One raw provider listing, as consumed by the rough-row loop.
`extracted_price` is a JSON number, hence finite when present. -/
structure SerpItem where
  source : Option String
  product_link : Option String
  extracted_price : Option ℚ
  priceField : JSPrice
deriving DecidableEq

/-- JS `a || b` for strings: the empty string is falsy. -/
def orElseStr (a : Option String) (d : String) : String :=
  match a with
  | some s => if s = "" then d else s
  | none => d

/-- `r.source || domainFromUrl(r.product_link) || "Unknown"`. -/
def rawStoreOf (uh : String → Option String) (it : SerpItem) : String :=
  orElseStr it.source (orElseStr (domainFromUrl uh it.product_link) "Unknown")

/-- `r.extracted_price ?? parsePrice(r.price)`: the nullish-coalescing
operator falls through only when `extracted_price` is absent. -/
def effPrice (it : SerpItem) : Option ℚ :=
  match it.extracted_price with
  | some q => some q
  | none => parsePrice it.priceField

/-- One iteration of the rough-row loop (source lines 304-317):
`if (!price) continue` drops a missing or falsy price (`null`, `0`, `NaN`);
then online-only stores are skipped; otherwise a row is pushed with the
placeholder location. -/
def roughRow (uh : String → Option String) (it : SerpItem) : Option Row :=
  match effPrice it with
  | none => none
  | some p =>
    if p = 0 then none
    else
      let rawStore := rawStoreOf uh it
      let store := normalizeStoreName rawStore
      if isOnlineOnlyStore rawStore store then none
      else some { store := store, price := p, location := "…",
                  lat := none, lng := none, distance_km := none }

/-- The rough-row loop over all listings. -/
def roughRows (uh : String → Option String) (items : List SerpItem) : List Row :=
  items.filterMap (roughRow uh)

/-! ### Sorting

`Array.prototype.sort` with a consistent comparator produces a sorted
permutation of the array.  It is embedded as a structural insertion sort on
the boolean relation `le a b` meaning `comparator(a, b) <= 0`; every claim
proved below concerns order and membership only, which any correct sort
satisfies. -/

/-- Insert into a sorted list. -/
def insertLe {α : Type} (le : α → α → Bool) (a : α) : List α → List α
  | [] => [a]
  | x :: xs => if le a x then a :: x :: xs else x :: insertLe le a xs

/-- Sort by the boolean relation `le`. -/
def sortLe {α : Type} (le : α → α → Bool) : List α → List α
  | [] => []
  | x :: xs => insertLe le x (sortLe le xs)

/-- `(a, b) => a.price - b.price` as the relation `comparator <= 0`. -/
def priceLe (a b : Row) : Bool := decide (a.price ≤ b.price)

/-- The distance of a row, with the `Infinity` sentinel as default. -/
def distKey (r : Row) : WithTop ℚ := r.distance_km.getD ⊤

/-- The closest-mode comparator (source lines 371-376) as the relation
`comparator <= 0`: two rows at the infinite sentinel compare by price,
otherwise by distance (`Infinity - finite > 0`, `finite - Infinity < 0`). -/
def closestLe (a b : Row) : Bool :=
  if distKey a = ⊤ ∧ distKey b = ⊤ then decide (a.price ≤ b.price)
  else decide (distKey a ≤ distKey b)

/-! ### The two ranking branches of `/v1/prices/search` -/

/-- Geocode decoration of one row in price mode (source lines 390-395 /
397-402): address and coordinates are copied onto the row. -/
def decorateGeo (geo : String → GeoHit) (r : Row) : Row :=
  let g := geo r.store
  { r with location := g.address, lat := g.lat, lng := g.lng }

/-- Geocode decoration of one row in closest mode (source lines 339-349 /
352-366): address and coordinates are copied onto the row, and
`distance_km` is the haversine distance when both coordinates resolved,
`Number.POSITIVE_INFINITY` otherwise.  `dist` abstracts `haversineKm`
specialised to the shopper's coordinates. -/
def decorateClosest (dist : ℚ → ℚ → ℚ → ℚ → ℚ) (geo : String → GeoHit)
    (lat lng : ℚ) (r : Row) : Row :=
  let g := geo r.store
  match g.lat, g.lng with
  | some la, some ln =>
    { r with location := g.address, lat := some la, lng := some ln,
             distance_km := some ((dist lat lng la ln : ℚ) : WithTop ℚ) }
  | gla, gln =>
    { r with location := g.address, lat := gla, lng := gln,
             distance_km := some ⊤ }

/-- The closest-mode branch (source lines 330-379): sort by price, keep
`Math.min(limit * 3, rows.length)` candidates, geocode and compute
distances, sort by the closest comparator, truncate to `limit`.  `geo`
abstracts a resolved geocoding world (the cache makes lookups for one store
consistent within a request). -/
def closestPipeline (dist : ℚ → ℚ → ℚ → ℚ → ℚ) (geo : String → GeoHit)
    (lat lng : ℚ) (limit : Nat) (rows : List Row) : List Row :=
  let toGeocode := min (limit * 3) rows.length
  let window := (sortLe priceLe rows).take toGeocode
  let geocoded := window.map (decorateClosest dist geo lat lng)
  (sortLe closestLe geocoded).take limit

/-- The price-mode branch (source lines 383-416): sort by price, keep
`limit * 2` candidates (`slice` caps at the array length), geocode, re-sort
by price, truncate to `limit`. -/
def pricePipeline (geo : String → GeoHit) (limit : Nat) (rows : List Row) :
    List Row :=
  let window := (sortLe priceLe rows).take (limit * 2)
  let geocoded := window.map (decorateGeo geo)
  (sortLe priceLe geocoded).take limit

/-- The row pipeline of `/v1/prices/search` after a successful provider
call (source lines 302-416): rough rows, dedupe, then the branch
`sort === "closest" && lat != null && lng != null`. -/
def searchRows (uh : String → Option String) (dist : ℚ → ℚ → ℚ → ℚ → ℚ)
    (geo : String → GeoHit) (items : List SerpItem) (limit : Nat)
    (sortClosest : Bool) (lat lng : Option ℚ) : List Row :=
  let rows := dedupeCheapest (roughRows uh items)
  match lat, lng with
  | some la, some ln =>
    if sortClosest then closestPipeline dist geo la ln limit rows
    else pricePipeline geo limit rows
  | some _, none => pricePipeline geo limit rows
  | none, some _ => pricePipeline geo limit rows
  | none, none => pricePipeline geo limit rows

/-! ### `fetchSerpShopping` (source lines 157-184) and the request status -/

/-- The provider payload, as far as the handler inspects it. -/
structure SerpJson where
  shopping_results : Option (List SerpItem)
deriving DecidableEq

/-- The error thrown by `fetchSerpShopping`: a rejected fetch, or
`new Error("SerpAPI HTTP status: body")` on a non-2xx response. -/
inductive SerpErr where
  | fetchFailed
  | httpError (status : Nat) (body : String)
deriving DecidableEq

/-- Outcome of the one shopping-search fetch of a request. -/
inductive FetchOutcome where
  | reject
  | response (status : Nat) (body : String) (json : SerpJson)
deriving DecidableEq

/-- The shopping-query cache key. -/
def serpKey (q city : String) : String := "serp:" ++ q ++ ":" ++ city

/-- `fetchSerpShopping` (source lines 157-184), returning the result (or
thrown error) together with the cache as left behind: a cache hit returns
the cached payload; otherwise the fetch runs, a rejection propagates, a
non-2xx response (`!res.ok`) throws with the provider status and body, and
only a 2xx response stores its payload. -/
def fetchSerpShopping (cache : List (String × SerpJson)) (outcome : FetchOutcome)
    (q city : String) : Except SerpErr SerpJson × List (String × SerpJson) :=
  let key := serpKey q city
  match alookup key cache with
  | some j => (.ok j, cache)
  | none =>
    match outcome with
    | .reject => (.error .fetchFailed, cache)
    | .response st body json =>
      if 200 ≤ st ∧ st ≤ 299 then (.ok json, (key, json) :: cache)
      else (.error (.httpError st body), cache)

/-! ### `geocodeStore` (source lines 189-236) -/

/-- Outcome of the Google Places call: a rejected fetch, a non-2xx
response, a 2xx response with no candidate, or a candidate (address plus
optional geometry). -/
inductive PrimaryOutcome where
  | reject
  | notOk
  | okEmpty
  | okFound (hit : GeoHit)
deriving DecidableEq

/-- A Nominatim result row (`display_name`, `Number(lat)`, `Number(lon)`). -/
structure NomPlace where
  display_name : String
  latq : ℚ
  lonq : ℚ
deriving DecidableEq

/-- Outcome of the Nominatim call: a rejected fetch, a non-2xx response, or
a 2xx response whose array has an optional first element. -/
inductive FallbackOutcome where
  | reject
  | notOk
  | okResult (first : Option NomPlace)
deriving DecidableEq

/-- The error escaping `geocodeStore` when the Nominatim fetch rejects. -/
inductive GeoErr where
  | fetchFailed
deriving DecidableEq

/-- The placeholder hit for a failed lookup. -/
def notFoundHit (store : String) : GeoHit :=
  { address := store ++ " (location not found)", lat := none, lng := none }

/-- `geocodeStore` (source lines 189-236), returning the result (or thrown
error) together with the value written to the geocode cache, if any.  A
cache hit returns immediately.  The Google Places attempt runs only with a
key configured and its fetch is inside `try/catch`, so a rejection, a
non-2xx response and an empty candidate list all fall through.  The
Nominatim fetch is NOT inside any `try`: a rejection propagates to the
caller; a non-2xx response returns the placeholder, and an empty result
array returns the placeholder as well. -/
def geocodeStore (hasKey : Bool) (cached : Option GeoHit)
    (prim : PrimaryOutcome) (fb : FallbackOutcome) (store city : String) :
    Except GeoErr GeoHit × Option GeoHit :=
  match cached with
  | some h => (.ok h, none)
  | none =>
    let viaPrimary : Option GeoHit :=
      if hasKey then
        match prim with
        | .okFound h => some h
        | _ => none
      else none
    match viaPrimary with
    | some h => (.ok h, some h)
    | none =>
      match fb with
      | .reject => (.error .fetchFailed, none)
      | .notOk => (.ok (notFoundHit store), some (notFoundHit store))
      | .okResult none => (.ok (notFoundHit store), some (notFoundHit store))
      | .okResult (some p) =>
        let geo : GeoHit :=
          { address := p.display_name, lat := some p.latq, lng := some p.lonq }
        (.ok geo, some geo)

/-- Whether the Google Places attempt of `geocodeStore` returns directly: a
key is configured and the call produced a candidate. -/
def primaryReturns (hasKey : Bool) (prim : PrimaryOutcome) : Bool :=
  hasKey &&
    match prim with
    | .okFound _ => true
    | _ => false

/-- Sequencing of fallible geocode calls: both the `Promise.all` fan-out and
the sequential `await` loop reject as soon as one call rejects. -/
def mapExcept {ε α β : Type} (f : α → Except ε β) : List α → Except ε (List β)
  | [] => .ok []
  | x :: xs =>
    match f x with
    | .error e => .error e
    | .ok y =>
      match mapExcept f xs with
      | .error e => .error e
      | .ok ys => .ok (y :: ys)

/-- The price-mode branch with a fallible geocoder (source lines 383-416):
a geocode rejection escapes the branch. -/
def pricePipelineE (geoE : String → Except GeoErr GeoHit) (limit : Nat)
    (rows : List Row) : Except GeoErr (List Row) :=
  let window := (sortLe priceLe rows).take (limit * 2)
  match mapExcept (fun r => (geoE r.store).map (fun g =>
      { r with location := g.address, lat := g.lat, lng := g.lng })) window with
  | .error e => .error e
  | .ok geocoded => .ok ((sortLe priceLe geocoded).take limit)

/-- HTTP status of `/v1/prices/search` on validated input (source lines
281-424): any error thrown while awaiting the provider call or the
pipeline's geocode calls reaches the surrounding `catch` and is reported as
`500`; otherwise the handler responds `200`. -/
def searchStatus (serp : Except SerpErr SerpJson)
    (pipeline : Except GeoErr (List Row)) : Nat :=
  match serp with
  | .error _ => 500
  | .ok _ =>
    match pipeline with
    | .error _ => 500
    | .ok _ => 200

/-! ### `haversineKm` (source lines 241-250)

The `Math` trigonometric functions are modelled by their exact real
counterparts. -/

noncomputable section

/-- `toRad`. -/
def toRad (x : ℝ) : ℝ := x * Real.pi / 180

/-- The intermediate `s` of `haversineKm`. -/
def haversineS (aLat aLng bLat bLng : ℝ) : ℝ :=
  Real.sin (toRad (bLat - aLat) / 2) ^ 2 +
    Real.cos (toRad aLat) * Real.cos (toRad bLat) *
      Real.sin (toRad (bLng - aLng) / 2) ^ 2

/-- `haversineKm` (source lines 241-250), with `R = 6371`. -/
def haversineKm (aLat aLng bLat bLng : ℝ) : ℝ :=
  2 * 6371 * Real.arcsin (min 1 (Real.sqrt (haversineS aLat aLng bLat bLng)))

end

example : normalizeStoreName "walmart.ca" = "Walmart" := by decide
example : normalizeStoreName "Real Canadian Superstore" = "Superstore" := by decide
example : normalizeStoreName "Walmart Supercentre" = "Walmart" := by decide
example : normalizeStoreName "save-on-foods inc." = "Save On Foods" := by decide
example : normalizeStoreName "london  drugs ltd" = "London Drugs" := by decide
example : normalizeStoreName "a.com.com" = "A.Com" := by decide
example : normalizeStoreName "A.Com" = "A" := by decide

example : parsePrice (.str "$2.50 CAD") = some (5 / 2) := by
  show some ((2 : ℚ) + 50 / 10 ^ 2) = some (5 / 2)
  norm_num
example : parsePrice (.str "$25 CAD") = some 25 := by decide
example : parsePrice (.str "abc") = some 0 := by decide
example : parsePrice (.str "1.2.3") = none := by decide
example : parsePrice .absent = none := by decide

example : isOnlineOnlyStore "eBay" "Ebay" = true := by decide
example : isOnlineOnlyStore "some raw" "Amazon" = true := by decide
example : isOnlineOnlyStore "Walmart" "Walmart" = false := by decide
example : isOnlineOnlyStore "walmart.com" "Walmart" = true := by decide
example : isOnlineOnlyStore "Uber Eats" "Uber Eats" = true := by decide

-- The spec's §8 scenario: Walmart 2.50, walmart.ca 2.75, eBay 1.00,
-- Costco 2.25 → two rows, Costco (2.25) then Walmart (2.50).
example :
    searchRows (fun _ => none) (fun _ _ _ _ => 0)
      (fun s => { address := s, lat := none, lng := none })
      [ { source := some "Walmart", product_link := none,
          extracted_price := some 250, priceField := .absent },
        { source := some "walmart.ca", product_link := none,
          extracted_price := some 275, priceField := .absent },
        { source := some "eBay", product_link := none,
          extracted_price := some 100, priceField := .absent },
        { source := some "Costco", product_link := none,
          extracted_price := some 225, priceField := .absent } ]
      3 false none none
    = [ { store := "Costco", price := 225, location := "Costco",
          lat := none, lng := none, distance_km := none },
        { store := "Walmart", price := 250, location := "Walmart",
          lat := none, lng := none, distance_km := none } ] := by decide

/-! ## Lemmas about the sorting embedding -/

theorem insertLe_perm {α : Type} (le : α → α → Bool) (a : α) (l : List α) :
    (insertLe le a l).Perm (a :: l) := by
  induction l with
  | nil => simp [insertLe]
  | cons x xs ih =>
    simp only [insertLe]
    split
    · exact List.Perm.refl _
    · exact (List.Perm.cons x ih).trans (List.Perm.swap a x xs)

theorem sortLe_perm {α : Type} (le : α → α → Bool) (l : List α) :
    (sortLe le l).Perm l := by
  induction l with
  | nil => simp [sortLe]
  | cons x xs ih => exact (insertLe_perm le x (sortLe le xs)).trans (ih.cons x)

theorem mem_sortLe {α : Type} {le : α → α → Bool} {l : List α} {a : α} :
    a ∈ sortLe le l ↔ a ∈ l :=
  (sortLe_perm le l).mem_iff

theorem length_sortLe {α : Type} (le : α → α → Bool) (l : List α) :
    (sortLe le l).length = l.length :=
  (sortLe_perm le l).length_eq

theorem insertLe_pairwise {α : Type} {le : α → α → Bool}
    (htrans : ∀ a b c, le a b = true → le b c = true → le a c = true)
    (htot : ∀ a b, le a b = true ∨ le b a = true)
    {a : α} {l : List α} (h : l.Pairwise (fun x y => le x y = true)) :
    (insertLe le a l).Pairwise (fun x y => le x y = true) := by
  induction l with
  | nil => simp [insertLe]
  | cons x xs ih =>
    rw [List.pairwise_cons] at h
    obtain ⟨hx, hxs⟩ := h
    simp only [insertLe]
    split
    · rename_i hax
      refine List.Pairwise.cons ?_ (List.Pairwise.cons hx hxs)
      intro b hb
      rcases List.mem_cons.mp hb with rfl | hb
      · exact hax
      · exact htrans a x b hax (hx b hb)
    · rename_i hax
      have hxa : le x a = true := by
        rcases htot a x with h1 | h1
        · exact absurd h1 hax
        · exact h1
      refine List.Pairwise.cons ?_ (ih hxs)
      intro b hb
      rcases List.mem_cons.mp ((insertLe_perm le a xs).mem_iff.mp hb) with rfl | h1
      · exact hxa
      · exact hx b h1
  
theorem sortLe_pairwise {α : Type} {le : α → α → Bool}
    (htrans : ∀ a b c, le a b = true → le b c = true → le a c = true)
    (htot : ∀ a b, le a b = true ∨ le b a = true) (l : List α) :
    (sortLe le l).Pairwise (fun x y => le x y = true) := by
  induction l with
  | nil => simp [sortLe]
  | cons x xs ih => exact insertLe_pairwise htrans htot ih

theorem priceLe_trans (a b c : Row) (h1 : priceLe a b = true)
    (h2 : priceLe b c = true) : priceLe a c = true := by
  simp only [priceLe, decide_eq_true_eq] at *
  exact le_trans h1 h2

theorem priceLe_total (a b : Row) : priceLe a b = true ∨ priceLe b a = true := by
  simp only [priceLe, decide_eq_true_eq]
  exact le_total a.price b.price

theorem closestLe_top_top {a b : Row} (ha : distKey a = ⊤) (hb : distKey b = ⊤) :
    closestLe a b = decide (a.price ≤ b.price) := by
  simp [closestLe, ha, hb]

theorem closestLe_not_both {a b : Row} (h : ¬(distKey a = ⊤ ∧ distKey b = ⊤)) :
    closestLe a b = decide (distKey a ≤ distKey b) := by
  simp only [closestLe, if_neg h]

theorem closestLe_trans (a b c : Row) (h1 : closestLe a b = true)
    (h2 : closestLe b c = true) : closestLe a c = true := by
  by_cases ha : distKey a = ⊤ <;> by_cases hb : distKey b = ⊤ <;>
    by_cases hc : distKey c = ⊤
  · rw [closestLe_top_top ha hb, decide_eq_true_eq] at h1
    rw [closestLe_top_top hb hc, decide_eq_true_eq] at h2
    rw [closestLe_top_top ha hc, decide_eq_true_eq]
    exact le_trans h1 h2
  · rw [closestLe_not_both (fun h => hc h.2), decide_eq_true_eq] at h2
    have htop : (⊤ : WithTop ℚ) ≤ distKey c := by
      rw [← hb]
      exact h2
    exact absurd (top_le_iff.mp htop) hc
  · rw [closestLe_not_both (fun h => hb h.2), decide_eq_true_eq] at h1
    have htop : (⊤ : WithTop ℚ) ≤ distKey b := by
      rw [← ha]
      exact h1
    exact absurd (top_le_iff.mp htop) hb
  · rw [closestLe_not_both (fun h => hb h.2), decide_eq_true_eq] at h1
    have htop : (⊤ : WithTop ℚ) ≤ distKey b := by
      rw [← ha]
      exact h1
    exact absurd (top_le_iff.mp htop) hb
  · rw [closestLe_not_both (fun h => ha h.1), decide_eq_true_eq]
    rw [hc]
    exact le_top
  · rw [closestLe_not_both (fun h => hc h.2), decide_eq_true_eq] at h2
    have htop : (⊤ : WithTop ℚ) ≤ distKey c := by
      rw [← hb]
      exact h2
    exact absurd (top_le_iff.mp htop) hc
  · rw [closestLe_not_both (fun h => ha h.1), decide_eq_true_eq]
    rw [hc]
    exact le_top
  · rw [closestLe_not_both (fun h => ha h.1), decide_eq_true_eq] at h1
    rw [closestLe_not_both (fun h => hb h.1), decide_eq_true_eq] at h2
    rw [closestLe_not_both (fun h => ha h.1), decide_eq_true_eq]
    exact le_trans h1 h2

theorem closestLe_total (a b : Row) : closestLe a b = true ∨ closestLe b a = true := by
  by_cases ha : distKey a = ⊤ <;> by_cases hb : distKey b = ⊤
  · rw [closestLe_top_top ha hb, closestLe_top_top hb ha,
      decide_eq_true_eq, decide_eq_true_eq]
    exact le_total a.price b.price
  · right
    rw [closestLe_not_both (fun h => hb h.1), decide_eq_true_eq, ha]
    exact le_top
  · left
    rw [closestLe_not_both (fun h => ha h.1), decide_eq_true_eq, hb]
    exact le_top
  · rw [closestLe_not_both (fun h => ha h.1), closestLe_not_both (fun h => hb h.1),
      decide_eq_true_eq, decide_eq_true_eq]
    exact le_total (distKey a) (distKey b)

/-! ## C9 and C10: the haversine distance -/

theorem haversineS_symm (aLat aLng bLat bLng : ℝ) :
    haversineS aLat aLng bLat bLng = haversineS bLat bLng aLat aLng := by
  unfold haversineS
  have h1 : toRad (aLat - bLat) / 2 = -(toRad (bLat - aLat) / 2) := by
    unfold toRad
    ring
  have h2 : toRad (aLng - bLng) / 2 = -(toRad (bLng - aLng) / 2) := by
    unfold toRad
    ring
  rw [h1, h2, Real.sin_neg, Real.sin_neg]
  ring

theorem haversineS_nonneg (aLat aLng bLat bLng : ℝ) :
    0 ≤ haversineS aLat aLng bLat bLng := by
  unfold haversineS
  set A := toRad aLat with hA
  set B := toRad bLat with hB
  have hrw : toRad (bLat - aLat) / 2 = (B - A) / 2 := by
    rw [hA, hB]
    unfold toRad
    ring
  rw [hrw]
  set t := Real.sin (toRad (bLng - aLng) / 2) ^ 2 with ht
  have ht0 : 0 ≤ t := sq_nonneg _
  have ht1 : t ≤ 1 := Real.sin_sq_le_one _
  have key : Real.sin ((B - A) / 2) ^ 2 + Real.cos A * Real.cos B
      = (1 + Real.cos (A + B)) / 2 := by
    have e1 : Real.cos (B - A) = 2 * Real.cos ((B - A) / 2) ^ 2 - 1 := by
      have := Real.cos_two_mul ((B - A) / 2)
      have e : 2 * ((B - A) / 2) = B - A := by ring
      rw [e] at this
      linarith
    have e2 : Real.sin ((B - A) / 2) ^ 2 = 1 - Real.cos ((B - A) / 2) ^ 2 :=
      Real.sin_sq _
    have e3 : Real.cos A * Real.cos B
        = (Real.cos (A - B) + Real.cos (A + B)) / 2 := by
      rw [Real.cos_sub, Real.cos_add]
      ring
    have e4 : Real.cos (A - B) = Real.cos (B - A) := by
      rw [show A - B = -(B - A) by ring, Real.cos_neg]
    rw [e2, e3, e4, e1]
    ring
  rcases le_or_lt 0 (Real.cos A * Real.cos B) with hP | hP
  · have := mul_nonneg hP ht0
    nlinarith [sq_nonneg (Real.sin ((B - A) / 2))]
  · have h5 : Real.cos A * Real.cos B * 1 ≤ Real.cos A * Real.cos B * t := by
      exact mul_le_mul_of_nonpos_left ht1 (le_of_lt hP)
    have h6 : -1 ≤ Real.cos (A + B) := Real.neg_one_le_cos (A + B)
    nlinarith

/-- C9: `haversineKm` is symmetric in its two coordinate pairs and returns
`0` for identical points (the `Math` functions being modelled by their exact
real counterparts). -/
theorem claim_C9 (lat1 lng1 lat2 lng2 : ℝ) :
    haversineKm lat1 lng1 lat2 lng2 = haversineKm lat2 lng2 lat1 lng1
    ∧ haversineKm lat1 lng1 lat1 lng1 = 0 := by
  constructor
  · unfold haversineKm
    rw [haversineS_symm]
  · unfold haversineKm
    have hz : haversineS lat1 lng1 lat1 lng1 = 0 := by
      unfold haversineS
      have h1 : toRad (lat1 - lat1) = 0 := by
        unfold toRad
        ring
      have h2 : toRad (lng1 - lng1) = 0 := by
        unfold toRad
        ring
      rw [h1, h2]
      simp
    rw [hz, Real.sqrt_zero]
    rw [min_eq_right (by norm_num : (0 : ℝ) ≤ 1), Real.arcsin_zero]
    ring

/-- C10: for all real inputs, the intermediate `s` of `haversineKm` is
nonnegative (so `Math.sqrt` never sees a negative argument and, with the
`Math.min(1, ...)` clamp, `Math.asin` never sees an argument outside
`[0, 1]`: the function is total, never `NaN`), and the result lies in
`[0, π * 6371]`, half the Earth's circumference. -/
theorem claim_C10 (lat1 lng1 lat2 lng2 : ℝ) :
    0 ≤ haversineS lat1 lng1 lat2 lng2
    ∧ 0 ≤ haversineKm lat1 lng1 lat2 lng2
    ∧ haversineKm lat1 lng1 lat2 lng2 ≤ 6371 * Real.pi := by
  refine ⟨haversineS_nonneg _ _ _ _, ?_, ?_⟩
  · unfold haversineKm
    have h0 : 0 ≤ min 1 (Real.sqrt (haversineS lat1 lng1 lat2 lng2)) :=
      le_min (by norm_num) (Real.sqrt_nonneg _)
    have := Real.arcsin_nonneg.mpr h0
    linarith
  · unfold haversineKm
    have h := Real.arcsin_le_pi_div_two
      (min 1 (Real.sqrt (haversineS lat1 lng1 lat2 lng2)))
    linarith

/-! ## C2: which listings survive the price filter -/

/-- C2 fails on the code: a listing with a negative `extracted_price` is NOT
discarded.  `-5` is truthy in JS, so `if (!price) continue` keeps the
listing even though its price is not positive. -/
theorem claim_C2_counterexample :
    (roughRow (fun _ => none)
        { source := some "Walmart", product_link := none,
          extracted_price := some (-5), priceField := .absent }).isSome = true
    ∧ effPrice
        { source := some "Walmart", product_link := none,
          extracted_price := some (-5), priceField := .absent } = some (-5)
    ∧ ¬(0 < (-5 : ℚ)) := by
  refine ⟨by decide, by decide, by decide⟩

/-- C2 amended: a listing contributes a row only if its effective price
(`extracted_price`, else `parsePrice` of the price string) is present and
nonzero — a missing, unparseable (`NaN`), or zero price is discarded, but a
negative (or any other nonzero) price is kept. -/
theorem claim_C2 (uh : String → Option String) (it : SerpItem) :
    ((roughRow uh it).isSome = true → ∃ q, effPrice it = some q ∧ q ≠ 0)
    ∧ (effPrice it = none ∨ effPrice it = some 0 → roughRow uh it = none) := by
  constructor
  · intro h
    cases heff : effPrice it with
    | none =>
      rw [roughRow, heff] at h
      simp at h
    | some q =>
      by_cases hq : q = 0
      · rw [roughRow, heff] at h
        simp [hq] at h
      · exact ⟨q, rfl, hq⟩
  · intro h
    rcases h with h | h
    · rw [roughRow, h]
    · rw [roughRow, h]
      simp

/-- Witness for C2 at a concrete listing: a price string with two dots
parses to `NaN`, so the listing is discarded. -/
theorem claim_C2_witness :
    roughRow (fun _ => none)
      { source := some "Walmart", product_link := none,
        extracted_price := none, priceField := .str "1.2.3" } = none :=
  (claim_C2 (fun _ => none)
    { source := some "Walmart", product_link := none,
      extracted_price := none, priceField := .str "1.2.3" }).2
    (Or.inl (by decide))

/-! ## C8: the shopping-query cache is populated only on success -/

/-- C8: on a cache miss with a non-2xx provider response,
`fetchSerpShopping` throws the error carrying the provider status and body,
leaves the cache unchanged, and the request is reported as `500`; and
whenever the cache changed at all, the call returned a payload. -/
theorem claim_C8 (cache : List (String × SerpJson)) (outcome : FetchOutcome)
    (q city : String) (p : Except GeoErr (List Row)) :
    (∀ st body json, alookup (serpKey q city) cache = none →
      outcome = .response st body json → ¬(200 ≤ st ∧ st ≤ 299) →
      (fetchSerpShopping cache outcome q city).1 = .error (.httpError st body)
      ∧ (fetchSerpShopping cache outcome q city).2 = cache
      ∧ searchStatus (fetchSerpShopping cache outcome q city).1 p = 500)
    ∧ ((fetchSerpShopping cache outcome q city).2 ≠ cache →
      ∃ j, (fetchSerpShopping cache outcome q city).1 = .ok j) := by
  constructor
  · intro st body json hmiss hout hbad
    subst hout
    simp [fetchSerpShopping, hmiss, hbad, searchStatus]
  · intro hne
    cases hl : alookup (serpKey q city) cache with
    | some j =>
      simp [fetchSerpShopping, hl] at hne
    | none =>
      cases outcome with
      | reject => simp [fetchSerpShopping, hl] at hne
      | response st body json =>
        by_cases hok : 200 ≤ st ∧ st ≤ 299
        · refine ⟨json, ?_⟩
          simp [fetchSerpShopping, hl, hok]
        · simp [fetchSerpShopping, hl, hok] at hne

/-- Witness for C8 at a concrete request: a 403 from the provider is thrown
with status and body, the empty cache stays empty, and the status is 500. -/
theorem claim_C8_witness :
    (fetchSerpShopping []
        (.response 403 "quota" { shopping_results := none }) "milk" "Vancouver").1
      = .error (.httpError 403 "quota")
    ∧ (fetchSerpShopping []
        (.response 403 "quota" { shopping_results := none }) "milk" "Vancouver").2 = []
    ∧ searchStatus (fetchSerpShopping []
        (.response 403 "quota" { shopping_results := none }) "milk"
        "Vancouver").1 (.ok []) = 500 :=
  (claim_C8 [] (.response 403 "quota" { shopping_results := none }) "milk"
      "Vancouver" (.ok [])).1
    403 "quota" { shopping_results := none } rfl rfl (by decide)

/-! ## C1: which geocoding failures escape `geocodeStore` -/

/-- C1 fails on the code: with no Google Places key configured (or a
primary attempt that produced nothing), a rejected Nominatim fetch is not
caught anywhere in `geocodeStore` — the error escapes, and in the price-mode
branch it reaches the handler's catch, so the request fails with 500. -/
theorem claim_C1_counterexample :
    (geocodeStore false none .okEmpty .reject "Walmart"
        "Vancouver, British Columbia, Canada").1 = .error .fetchFailed
    ∧ searchStatus (.ok { shopping_results := some [] })
        (pricePipelineE
          (fun s => (geocodeStore false none .okEmpty .reject s
            "Vancouver, British Columbia, Canada").1)
          5
          [{ store := "Walmart", price := 250, location := "…",
             lat := none, lng := none, distance_km := none }]) = 500 := by
  exact ⟨rfl, rfl⟩

/-- C1 amended: every outcome of the primary (Google Places) call —
rejection, non-2xx, empty — is absorbed, and a non-2xx or empty fallback
response yields the placeholder hit; the one failure that does escape
`geocodeStore` is a rejection of the (uncaught) Nominatim fallback fetch,
and it escapes exactly when the lookup misses the cache, the primary did
not return, and that fetch rejects. -/
theorem claim_C1 (hasKey : Bool) (cached : Option GeoHit) (prim : PrimaryOutcome)
    (fb : FallbackOutcome) (store city : String) :
    (fb ≠ .reject → ∃ h, (geocodeStore hasKey cached prim fb store city).1 = .ok h)
    ∧ ((geocodeStore hasKey cached prim fb store city).1 = .error .fetchFailed ↔
        cached = none ∧ fb = .reject ∧ primaryReturns hasKey prim = false)
    ∧ (cached = none → primaryReturns hasKey prim = false → fb = .notOk →
        (geocodeStore hasKey cached prim fb store city).1
          = .ok (notFoundHit store)) := by
  cases cached with
  | some h =>
    refine ⟨fun _ => ⟨h, rfl⟩, by simp [geocodeStore], fun hc => absurd hc (by simp)⟩
  | none =>
    cases hasKey <;> cases prim <;>
      rcases fb with _ | _ | first <;>
      first
        | (cases first <;> simp [geocodeStore, primaryReturns, notFoundHit])
        | (simp [geocodeStore, primaryReturns, notFoundHit])

/-- Witness for C1 at a concrete lookup: the primary fetch rejects but a key
is configured, the fallback returns non-2xx, and the resolver still returns
a hit (the placeholder). -/
theorem claim_C1_witness :
    (∃ h, (geocodeStore true none .reject .notOk "Costco" "Vancouver").1 = .ok h)
    ∧ (geocodeStore true none .reject .notOk "Costco" "Vancouver").1
        = .ok (notFoundHit "Costco") :=
  ⟨(claim_C1 true none .reject .notOk "Costco" "Vancouver").1 (by decide),
   (claim_C1 true none .reject .notOk "Costco" "Vancouver").2.2 rfl (by decide) rfl⟩

/-! ## C6: price mode -/

theorem priceLe_pairwise_imp {l : List Row}
    (h : l.Pairwise (fun a b => priceLe a b = true)) :
    l.Pairwise (fun a b => a.price ≤ b.price) := by
  refine h.imp ?_
  intro a b hab
  simpa [priceLe] using hab

/-- C6: in price mode the geocoding candidate window is
`Math.min(limit * 2, rows.length)` rows long (the `slice` cap), and the
final response is at most `limit` rows in non-decreasing price order. -/
theorem claim_C6 (geo : String → GeoHit) (limit : Nat) (rows : List Row) :
    ((sortLe priceLe rows).take (limit * 2)).length = min (limit * 2) rows.length
    ∧ (pricePipeline geo limit rows).Pairwise (fun a b => a.price ≤ b.price)
    ∧ (pricePipeline geo limit rows).length ≤ limit := by
  refine ⟨?_, ?_, ?_⟩
  · rw [List.length_take, length_sortLe]
  · have hs := sortLe_pairwise priceLe_trans priceLe_total
      (((sortLe priceLe rows).take (limit * 2)).map (decorateGeo geo))
    have ht := hs.sublist (List.take_sublist limit _)
    exact priceLe_pairwise_imp ht
  · exact List.length_take_le _ _

/-- Witness for C6 at a concrete request: with two rows and limit 1, the
window has `min 2 2 = 2` rows and the response is one row. -/
theorem claim_C6_witness :
    ((sortLe priceLe
        [{ store := "A", price := 3, location := "…", lat := none, lng := none,
           distance_km := none },
         { store := "B", price := 2, location := "…", lat := none, lng := none,
           distance_km := none }]).take (1 * 2)).length = min (1 * 2) 2
    ∧ (pricePipeline (fun s => { address := s, lat := none, lng := none }) 1
        [{ store := "A", price := 3, location := "…", lat := none, lng := none,
           distance_km := none },
         { store := "B", price := 2, location := "…", lat := none, lng := none,
           distance_km := none }]).length ≤ 1 :=
  ⟨(claim_C6 (fun s => { address := s, lat := none, lng := none }) 1 _).1,
   (claim_C6 (fun s => { address := s, lat := none, lng := none }) 1 _).2.2⟩

/-! ## C5: closest mode -/

theorem closestLe_imp_distKey {a b : Row} (h : closestLe a b = true) :
    distKey a ≤ distKey b := by
  by_cases hab : distKey a = ⊤ ∧ distKey b = ⊤
  · rw [hab.1, hab.2]
  · rw [closestLe_not_both hab, decide_eq_true_eq] at h
    exact h

theorem closestLe_imp_topOrder {a b : Row} (h : closestLe a b = true)
    (ha : distKey a = ⊤) : distKey b = ⊤ :=
  top_le_iff.mp (ha ▸ closestLe_imp_distKey h)

theorem closestLe_imp_tiePrice {a b : Row} (h : closestLe a b = true)
    (ha : distKey a = ⊤) (hb : distKey b = ⊤) : a.price ≤ b.price := by
  rw [closestLe_top_top ha hb, decide_eq_true_eq] at h
  exact h

theorem decorateClosest_noCoords (dist : ℚ → ℚ → ℚ → ℚ → ℚ)
    (geo : String → GeoHit) (lat lng : ℚ) (r : Row)
    (h : (decorateClosest dist geo lat lng r).lat = none
      ∨ (decorateClosest dist geo lat lng r).lng = none) :
    (decorateClosest dist geo lat lng r).distance_km = some ⊤ := by
  simp only [decorateClosest] at h ⊢
  cases hla : (geo r.store).lat with
  | none => simp [hla]
  | some la =>
    cases hln : (geo r.store).lng with
    | none => simp [hla, hln]
    | some ln =>
      simp only [hla, hln] at h
      simp at h

/-- C5: in closest mode the response rows are in non-decreasing distance
order, a row at the infinite sentinel never precedes a finite-distance row,
rows tied at the sentinel are in non-decreasing price order, a row whose
geocode resolved no coordinates carries the sentinel, and at most `limit`
rows are returned. -/
theorem claim_C5 (dist : ℚ → ℚ → ℚ → ℚ → ℚ) (geo : String → GeoHit)
    (lat lng : ℚ) (limit : Nat) (rows : List Row) :
    (closestPipeline dist geo lat lng limit rows).Pairwise
      (fun a b => distKey a ≤ distKey b)
    ∧ (closestPipeline dist geo lat lng limit rows).Pairwise
      (fun a b => distKey a = ⊤ → distKey b = ⊤)
    ∧ (closestPipeline dist geo lat lng limit rows).Pairwise
      (fun a b => distKey a = ⊤ → distKey b = ⊤ → a.price ≤ b.price)
    ∧ (∀ r ∈ closestPipeline dist geo lat lng limit rows,
        (r.lat = none ∨ r.lng = none) → r.distance_km = some ⊤)
    ∧ (closestPipeline dist geo lat lng limit rows).length ≤ limit := by
  have hs := sortLe_pairwise closestLe_trans closestLe_total
    (((sortLe priceLe rows).take (min (limit * 3) rows.length)).map
      (decorateClosest dist geo lat lng))
  have ht := hs.sublist (List.take_sublist limit _)
  refine ⟨ht.imp (fun h => closestLe_imp_distKey h),
    ht.imp (fun h ha => closestLe_imp_topOrder h ha),
    ht.imp (fun h ha hb => closestLe_imp_tiePrice h ha hb), ?_, ?_⟩
  · intro r hr hcoords
    have hr2 : r ∈ ((sortLe priceLe rows).take (min (limit * 3) rows.length)).map
        (decorateClosest dist geo lat lng) := by
      have := (List.take_sublist limit _).mem hr
      exact mem_sortLe.mp this
    obtain ⟨r0, _, rfl⟩ := List.mem_map.mp hr2
    exact decorateClosest_noCoords dist geo lat lng r0 hcoords
  · exact List.length_take_le _ _

/-- Witness for C5 at a concrete request: a store that geocodes without
coordinates ends up with the infinite-distance sentinel in the response. -/
theorem claim_C5_witness :
    (decorateClosest (fun _ _ _ _ => 0)
        (fun s => { address := s, lat := none, lng := none }) 49 (-123)
        { store := "A", price := 3, location := "…", lat := none, lng := none,
          distance_km := none }).distance_km = some ⊤ :=
  (claim_C5 (fun _ _ _ _ => 0)
      (fun s => { address := s, lat := none, lng := none }) 49 (-123) 1
      [{ store := "A", price := 3, location := "…", lat := none, lng := none,
         distance_km := none }]).2.2.2.1 _ (by decide) (Or.inl (by decide))

/-! ## C7: online-only exclusion -/

theorem aupdate_mem {α : Type} {k : String} {v : α} {m : List (String × α)}
    {e : String × α} (h : e ∈ aupdate k v m) : e = (k, v) ∨ e ∈ m := by
  induction m with
  | nil => simp [aupdate] at h
  | cons x xs ih =>
    rw [aupdate] at h
    by_cases hk : x.1 = k
    · rw [if_pos hk] at h
      rcases List.mem_cons.mp h with rfl | h
      · left
        rw [hk]
      · exact Or.inr (List.mem_cons_of_mem x h)
    · rw [if_neg hk] at h
      rcases List.mem_cons.mp h with rfl | h
      · exact Or.inr (List.mem_cons_self _ _)
      · rcases ih h with h1 | h1
        · exact Or.inl h1
        · exact Or.inr (List.mem_cons_of_mem x h1)

theorem dedupe_fold_mem {rows : List Row} :
    ∀ {m : List (String × Row)} {e : String × Row},
      e ∈ rows.foldl dedupeStep m → e ∈ m ∨ e.2 ∈ rows := by
  induction rows with
  | nil =>
    intro m e h
    exact Or.inl h
  | cons r rest ih =>
    intro m e h
    rw [List.foldl_cons] at h
    rcases ih h with h1 | h1
    · cases hl : alookup (rowKey r) m with
      | none =>
        simp only [dedupeStep, hl] at h1
        rcases List.mem_append.mp h1 with h2 | h2
        · exact Or.inl h2
        · simp only [List.mem_singleton] at h2
          subst h2
          exact Or.inr (List.mem_cons_self _ _)
      | some old =>
        simp only [dedupeStep, hl] at h1
        by_cases hp : r.price < old.price
        · rw [if_pos hp] at h1
          rcases aupdate_mem h1 with h2 | h2
          · subst h2
            exact Or.inr (List.mem_cons_self _ _)
          · exact Or.inl h2
        · rw [if_neg hp] at h1
          exact Or.inl h1
    · exact Or.inr (List.mem_cons_of_mem r h1)

/-- Every deduplicated row is one of the input rows. -/
theorem dedupe_sub {rows : List Row} {r : Row} (h : r ∈ dedupeCheapest rows) :
    r ∈ rows := by
  rw [dedupeCheapest] at h
  obtain ⟨e, he, rfl⟩ := List.mem_map.mp h
  rcases dedupe_fold_mem he with h1 | h1
  · simp at h1
  · exact h1

theorem decorateGeo_store (geo : String → GeoHit) (r : Row) :
    (decorateGeo geo r).store = r.store := rfl

theorem decorateClosest_store (dist : ℚ → ℚ → ℚ → ℚ → ℚ)
    (geo : String → GeoHit) (lat lng : ℚ) (r : Row) :
    (decorateClosest dist geo lat lng r).store = r.store := by
  simp only [decorateClosest]
  cases hla : (geo r.store).lat with
  | none => simp [hla]
  | some la =>
    cases hln : (geo r.store).lng with
    | none => simp [hla, hln]
    | some ln => simp [hla, hln]

theorem pricePipeline_store {geo : String → GeoHit} {limit : Nat}
    {rows : List Row} {r : Row} (h : r ∈ pricePipeline geo limit rows) :
    ∃ r0 ∈ rows, r.store = r0.store := by
  simp only [pricePipeline] at h
  have h1 := mem_sortLe.mp ((List.take_sublist limit _).mem h)
  obtain ⟨r1, hr1, rfl⟩ := List.mem_map.mp h1
  refine ⟨r1, ?_, decorateGeo_store geo r1⟩
  exact mem_sortLe.mp ((List.take_sublist _ _).mem hr1)

theorem closestPipeline_store {dist : ℚ → ℚ → ℚ → ℚ → ℚ}
    {geo : String → GeoHit} {lat lng : ℚ} {limit : Nat}
    {rows : List Row} {r : Row}
    (h : r ∈ closestPipeline dist geo lat lng limit rows) :
    ∃ r0 ∈ rows, r.store = r0.store := by
  simp only [closestPipeline] at h
  have h1 := mem_sortLe.mp ((List.take_sublist limit _).mem h)
  obtain ⟨r1, hr1, rfl⟩ := List.mem_map.mp h1
  refine ⟨r1, ?_, decorateClosest_store dist geo lat lng r1⟩
  exact mem_sortLe.mp ((List.take_sublist _ _).mem hr1)

theorem roughRow_spec {uh : String → Option String} {it : SerpItem} {r : Row}
    (h : roughRow uh it = some r) :
    r.store = normalizeStoreName (rawStoreOf uh it)
    ∧ isOnlineOnlyStore (rawStoreOf uh it)
        (normalizeStoreName (rawStoreOf uh it)) = false := by
  cases heff : effPrice it with
  | none => simp [roughRow, heff] at h
  | some p =>
    simp only [roughRow, heff] at h
    by_cases hp : p = 0
    · rw [if_pos hp] at h
      exact absurd h (by simp)
    · rw [if_neg hp] at h
      by_cases ho : isOnlineOnlyStore (rawStoreOf uh it)
          (normalizeStoreName (rawStoreOf uh it)) = true
      · rw [if_pos ho] at h
        exact absurd h (by simp)
      · rw [if_neg ho] at h
        have := Option.some.inj h
        subst this
        exact ⟨rfl, Bool.not_eq_true _ ▸ ho⟩

/-- The `^ebay` rule fires on the raw label `"eBay"` whatever the canonical
name is. -/
theorem ebay_blocked (n : String) : isOnlineOnlyStore "eBay" n = true := by
  rw [isOnlineOnlyStore, ONLINE_ONLY_PATTERNS]
  simp only [List.any_cons, Bool.or_eq_true]
  left
  left
  decide

/-- The `^amazon` rule fires on the canonical name `"Amazon"` whatever the
raw label is. -/
theorem amazon_blocked (raw : String) : isOnlineOnlyStore raw "Amazon" = true := by
  rw [isOnlineOnlyStore, ONLINE_ONLY_PATTERNS]
  simp only [List.any_cons, Bool.or_eq_true]
  right
  left
  right
  decide

/-- C7: every row of a `/v1/prices/search` response, in either ranking
mode, originates from a listing that survived the online-only filter; in
particular no output row comes from a listing whose raw merchant label is
`"eBay"` or whose canonical name is `"Amazon"`. -/
theorem claim_C7 (uh : String → Option String) (dist : ℚ → ℚ → ℚ → ℚ → ℚ)
    (geo : String → GeoHit) (items : List SerpItem) (limit : Nat)
    (sortClosest : Bool) (lat lng : Option ℚ) :
    ∀ r ∈ searchRows uh dist geo items limit sortClosest lat lng,
      ∃ it, it ∈ items
        ∧ r.store = normalizeStoreName (rawStoreOf uh it)
        ∧ rawStoreOf uh it ≠ "eBay"
        ∧ normalizeStoreName (rawStoreOf uh it) ≠ "Amazon" := by
  intro r hr
  have hprov : ∃ r0 ∈ dedupeCheapest (roughRows uh items), r.store = r0.store := by
    cases lat with
    | none =>
      cases lng with
      | none => exact pricePipeline_store hr
      | some ln => exact pricePipeline_store hr
    | some la =>
      cases lng with
      | none => exact pricePipeline_store hr
      | some ln =>
        cases sortClosest with
        | true => exact closestPipeline_store hr
        | false => exact pricePipeline_store hr
  obtain ⟨r0, hr0, hstore⟩ := hprov
  have hr0' : r0 ∈ roughRows uh items := dedupe_sub hr0
  obtain ⟨it, hit, hsome⟩ := List.mem_filterMap.mp hr0'
  obtain ⟨hst, hfilter⟩ := roughRow_spec hsome
  refine ⟨it, hit, hstore.trans hst, ?_, ?_⟩
  · intro hraw
    rw [hraw, ebay_blocked] at hfilter
    exact Bool.true_eq_false ▸ hfilter
  · intro hnorm
    rw [hnorm, amazon_blocked] at hfilter
    exact Bool.true_eq_false ▸ hfilter

/-- Witness for C7 at the spec's concrete scenario: the single response row
comes from the Costco listing, not from eBay or an Amazon-normalizing one. -/
theorem claim_C7_witness :
    ∃ it, it ∈
        [ { source := some "eBay", product_link := none,
            extracted_price := some 100, priceField := .absent },
          ({ source := some "Costco", product_link := none,
             extracted_price := some 225, priceField := .absent } : SerpItem) ]
      ∧ ({ store := "Costco", price := 225, location := "Costco",
           lat := none, lng := none, distance_km := none } : Row).store
          = normalizeStoreName (rawStoreOf (fun _ => none) it)
      ∧ rawStoreOf (fun _ => none) it ≠ "eBay"
      ∧ normalizeStoreName (rawStoreOf (fun _ => none) it) ≠ "Amazon" :=
  claim_C7 (fun _ => none) (fun _ _ _ _ => 0)
    (fun s => { address := s, lat := none, lng := none })
    [ { source := some "eBay", product_link := none,
        extracted_price := some 100, priceField := .absent },
      { source := some "Costco", product_link := none,
        extracted_price := some 225, priceField := .absent } ]
    5 false none none
    { store := "Costco", price := 225, location := "Costco",
      lat := none, lng := none, distance_km := none }
    (by decide)

/-! ## C3: the dedupe invariant -/

theorem alookup_append {α : Type} (k : String) (m l : List (String × α)) :
    alookup k (m ++ l) =
      match alookup k m with
      | some v => some v
      | none => alookup k l := by
  induction m with
  | nil => simp [alookup]
  | cons x xs ih =>
    rw [List.cons_append, alookup, alookup]
    by_cases hk : x.1 = k
    · simp [if_pos hk]
    · simp only [if_neg hk]
      exact ih

theorem alookup_aupdate_self {α : Type} (k : String) (v : α)
    (m : List (String × α)) :
    alookup k (aupdate k v m) =
      match alookup k m with
      | some _ => some v
      | none => none := by
  induction m with
  | nil => simp [alookup, aupdate]
  | cons x xs ih =>
    rw [aupdate]
    by_cases hk : x.1 = k
    · rw [if_pos hk, alookup, alookup]
      simp [if_pos hk]
    · rw [if_neg hk, alookup, alookup, if_neg hk, if_neg hk]
      exact ih

theorem alookup_aupdate_ne {α : Type} {k' k : String} (h : k' ≠ k) (v : α)
    (m : List (String × α)) :
    alookup k (aupdate k' v m) = alookup k m := by
  induction m with
  | nil => simp [alookup, aupdate]
  | cons x xs ih =>
    rw [aupdate]
    by_cases hk : x.1 = k'
    · rw [if_pos hk, alookup, alookup]
      have : ¬x.1 = k := by
        rw [hk]
        exact h
      rw [if_neg this, if_neg this]
    · rw [if_neg hk, alookup, alookup]
      by_cases h2 : x.1 = k
      · rw [if_pos h2, if_pos h2]
      · rw [if_neg h2, if_neg h2]
        exact ih

theorem dedupeStep_lookup (m : List (String × Row)) (r : Row) (k : String) :
    alookup k (dedupeStep m r) =
      if rowKey r = k then
        match alookup k m with
        | none => some r
        | some c => if r.price < c.price then some r else some c
      else alookup k m := by
  by_cases hk : rowKey r = k
  · subst hk
    cases hl : alookup (rowKey r) m with
    | none =>
      simp only [dedupeStep, hl, if_pos rfl]
      rw [alookup_append, hl, alookup, if_pos rfl]
      simp
    | some old =>
      simp only [dedupeStep, hl, if_pos rfl]
      by_cases hp : r.price < old.price
      · rw [if_pos hp, alookup_aupdate_self, hl]
        simp [hp]
      · rw [if_neg hp, hl]
        simp [hp]
  · cases hl : alookup (rowKey r) m with
    | none =>
      simp only [dedupeStep, hl, if_neg hk]
      rw [alookup_append]
      cases h2 : alookup k m with
      | none => rw [alookup, if_neg hk, alookup]
      | some v => rfl
    | some old =>
      simp only [dedupeStep, hl, if_neg hk]
      by_cases hp : r.price < old.price
      · rw [if_pos hp, alookup_aupdate_ne hk]
      · rw [if_neg hp]

theorem dedupe_fold_lookup (k : String) :
    ∀ (rows : List Row) (m : List (String × Row)),
      alookup k (rows.foldl dedupeStep m) = foldKey k (alookup k m) rows := by
  intro rows
  induction rows with
  | nil =>
    intro m
    rw [List.foldl_nil]
    simp only [foldKey]
  | cons r rest ih =>
    intro m
    rw [List.foldl_cons]
    simp only [foldKey]
    rw [ih (dedupeStep m r), dedupeStep_lookup]

theorem foldKey_min (k : String) :
    ∀ (rows : List Row) (o : Option Row) (v : Row), foldKey k o rows = some v →
      (∀ r' ∈ rows, rowKey r' = k → v.price ≤ r'.price)
      ∧ (∀ c, o = some c → v.price ≤ c.price) := by
  intro rows
  induction rows with
  | nil =>
    intro o v h
    simp only [foldKey] at h
    refine ⟨by simp, ?_⟩
    intro c hc
    rw [hc] at h
    exact le_of_eq (congrArg Row.price (Option.some.inj h)).symm
  | cons r rest ih =>
    intro o v h
    simp only [foldKey] at h
    obtain ⟨H1, H2⟩ := ih _ v h
    by_cases hk : rowKey r = k
    · rw [if_pos hk] at H2
      constructor
      · intro r' hr' hk'
        rcases List.mem_cons.mp hr' with rfl | hr'
        · cases o with
          | none => exact H2 r' rfl
          | some c =>
            by_cases hp : r'.price < c.price
            · exact H2 r' (if_pos hp)
            · exact (H2 c (if_neg hp)).trans (le_of_not_lt hp)
        · exact H1 r' hr' hk'
      · intro c hc
        subst hc
        by_cases hp : r.price < c.price
        · exact (H2 r (if_pos hp)).trans (le_of_lt hp)
        · exact H2 c (if_neg hp)
    · rw [if_neg hk] at H2
      constructor
      · intro r' hr' hk'
        rcases List.mem_cons.mp hr' with rfl | hr'
        · exact absurd hk' hk
        · exact H1 r' hr' hk'
      · exact H2

theorem foldKey_first (k : String) :
    ∀ (rows : List Row) (o : Option Row) (v : Row), foldKey k o rows = some v →
      (o = some v ∧ ∀ r' ∈ rows, rowKey r' = k → v.price ≤ r'.price)
      ∨ (∃ l₁ l₂, rows = l₁ ++ v :: l₂ ∧ rowKey v = k
          ∧ (∀ r' ∈ l₁, rowKey r' = k → v.price < r'.price)
          ∧ (∀ c, o = some c → v.price < c.price)) := by
  intro rows
  induction rows with
  | nil =>
    intro o v h
    simp only [foldKey] at h
    exact Or.inl ⟨h, by simp⟩
  | cons r rest ih =>
    intro o v h
    simp only [foldKey] at h
    by_cases hk : rowKey r = k
    · rw [if_pos hk] at h
      cases o with
      | none =>
        rcases ih _ v h with ⟨ho, hmin⟩ | ⟨l₁, l₂, hsplit, hkey, hstrict, hbeat⟩
        · obtain rfl := Option.some.inj ho
          right
          exact ⟨[], rest, rfl, hk, by simp, fun c hc => by cases hc⟩
        · right
          refine ⟨r :: l₁, l₂, by rw [hsplit, List.cons_append], hkey, ?_,
            fun c hc => by cases hc⟩
          intro r' hr' hk'
          rcases List.mem_cons.mp hr' with rfl | hr'
          · exact hbeat r' rfl
          · exact hstrict r' hr' hk'
      | some c0 =>
        have h' : foldKey k
            (if r.price < c0.price then some r else some c0) rest = some v := h
        by_cases hp : r.price < c0.price
        · rw [if_pos hp] at h'
          rcases ih _ v h' with ⟨ho, hmin⟩ | ⟨l₁, l₂, hsplit, hkey, hstrict, hbeat⟩
          · obtain rfl := Option.some.inj ho
            right
            refine ⟨[], rest, rfl, hk, by simp, ?_⟩
            intro c hc
            obtain rfl := Option.some.inj hc
            exact hp
          · right
            refine ⟨r :: l₁, l₂, by rw [hsplit, List.cons_append], hkey, ?_, ?_⟩
            · intro r' hr' hk'
              rcases List.mem_cons.mp hr' with rfl | hr'
              · exact hbeat r' rfl
              · exact hstrict r' hr' hk'
            · intro c hc
              obtain rfl := Option.some.inj hc
              exact (hbeat r rfl).trans hp
        · rw [if_neg hp] at h'
          rcases ih _ v h' with ⟨ho, hmin⟩ | ⟨l₁, l₂, hsplit, hkey, hstrict, hbeat⟩
          · obtain rfl := Option.some.inj ho
            left
            refine ⟨rfl, ?_⟩
            intro r' hr' hk'
            rcases List.mem_cons.mp hr' with rfl | hr'
            · exact le_of_not_lt hp
            · exact hmin r' hr' hk'
          · right
            refine ⟨r :: l₁, l₂, by rw [hsplit, List.cons_append], hkey, ?_, ?_⟩
            · intro r' hr' hk'
              rcases List.mem_cons.mp hr' with rfl | hr'
              · exact lt_of_lt_of_le (hbeat c0 rfl) (le_of_not_lt hp)
              · exact hstrict r' hr' hk'
            · intro c hc
              obtain rfl := Option.some.inj hc
              exact hbeat c0 rfl
    · rw [if_neg hk] at h
      rcases ih _ v h with ⟨ho, hmin⟩ | ⟨l₁, l₂, hsplit, hkey, hstrict, hbeat⟩
      · left
        refine ⟨ho, ?_⟩
        intro r' hr' hk'
        rcases List.mem_cons.mp hr' with rfl | hr'
        · exact absurd hk' hk
        · exact hmin r' hr' hk'
      · right
        refine ⟨r :: l₁, l₂, by rw [hsplit, List.cons_append], hkey, ?_, hbeat⟩
        intro r' hr' hk'
        rcases List.mem_cons.mp hr' with rfl | hr'
        · exact absurd hk' hk
        · exact hstrict r' hr' hk'

theorem alookup_none_iff {α : Type} {k : String} {m : List (String × α)} :
    alookup k m = none ↔ k ∉ m.map Prod.fst := by
  induction m with
  | nil => simp [alookup]
  | cons x xs ih =>
    rw [alookup]
    by_cases hk : x.1 = k
    · simp [if_pos hk, hk]
    · simp only [if_neg hk, List.map_cons, List.mem_cons, ih]
      constructor
      · intro h hmem
        rcases hmem with h2 | h2
        · exact hk h2.symm
        · exact h h2
      · intro h h2
        exact h (Or.inr h2)

theorem aupdate_keys {α : Type} (k : String) (v : α) (m : List (String × α)) :
    (aupdate k v m).map Prod.fst = m.map Prod.fst := by
  induction m with
  | nil => rfl
  | cons x xs ih =>
    rw [aupdate]
    by_cases hk : x.1 = k
    · rw [if_pos hk]
      simp [hk]
    · rw [if_neg hk]
      simp [ih]

theorem dedupe_fold_wellKeyed {rows : List Row} :
    ∀ {m : List (String × Row)}, (∀ e ∈ m, e.1 = rowKey e.2) →
      ∀ e ∈ rows.foldl dedupeStep m, e.1 = rowKey e.2 := by
  induction rows with
  | nil => exact fun hm => hm
  | cons r rest ih =>
    intro m hm e he
    rw [List.foldl_cons] at he
    refine ih ?_ e he
    intro e' he'
    cases hl : alookup (rowKey r) m with
    | none =>
      simp only [dedupeStep, hl] at he'
      rcases List.mem_append.mp he' with h2 | h2
      · exact hm e' h2
      · simp only [List.mem_singleton] at h2
        subst h2
        rfl
    | some old =>
      simp only [dedupeStep, hl] at he'
      by_cases hp : r.price < old.price
      · rw [if_pos hp] at he'
        rcases aupdate_mem he' with h2 | h2
        · subst h2
          rfl
        · exact hm e' h2
      · rw [if_neg hp] at he'
        exact hm e' he'

theorem dedupe_fold_nodup {rows : List Row} :
    ∀ {m : List (String × Row)}, (m.map Prod.fst).Nodup →
      ((rows.foldl dedupeStep m).map Prod.fst).Nodup := by
  induction rows with
  | nil => exact fun hm => hm
  | cons r rest ih =>
    intro m hm
    rw [List.foldl_cons]
    refine ih ?_
    cases hl : alookup (rowKey r) m with
    | none =>
      simp only [dedupeStep, hl]
      rw [List.map_append]
      rw [List.nodup_append]
      refine ⟨hm, by simp, ?_⟩
      intro a ha hb
      simp only [List.map_cons, List.map_nil, List.mem_singleton] at hb
      subst hb
      exact alookup_none_iff.mp hl ha
    | some old =>
      simp only [dedupeStep, hl]
      by_cases hp : r.price < old.price
      · rw [if_pos hp, aupdate_keys]
        exact hm
      · rw [if_neg hp]
        exact hm

theorem alookup_of_mem_nodup {α : Type} {k : String} {v : α}
    {m : List (String × α)} (hnd : (m.map Prod.fst).Nodup)
    (h : (k, v) ∈ m) : alookup k m = some v := by
  induction m with
  | nil => simp at h
  | cons x xs ih =>
    rw [List.map_cons, List.nodup_cons] at hnd
    rcases List.mem_cons.mp h with rfl | h2
    · rw [alookup, if_pos rfl]
    · have hk : x.1 ≠ k := by
        intro hx
        refine hnd.1 ?_
        rw [hx]
        exact List.mem_map.mpr ⟨(k, v), h2, rfl⟩
      rw [alookup, if_neg hk]
      exact ih hnd.2 h2

/-- C3: `dedupeCheapest` keeps at most one row per lowercase store name, the
kept row's price is a lower bound of every input row with that name, and the
kept row is the first-seen among the tying cheapest ones: every input row
with the same name occurring before it is strictly more expensive. -/
theorem claim_C3 (rows : List Row) :
    (dedupeCheapest rows).Pairwise (fun a b => rowKey a ≠ rowKey b)
    ∧ (∀ r ∈ dedupeCheapest rows, ∀ r' ∈ rows, rowKey r' = rowKey r →
        r.price ≤ r'.price)
    ∧ (∀ r ∈ dedupeCheapest rows, ∃ l₁ l₂, rows = l₁ ++ r :: l₂
        ∧ ∀ r' ∈ l₁, rowKey r' = rowKey r → r.price < r'.price) := by
  have hwk : ∀ e ∈ rows.foldl dedupeStep [], e.1 = rowKey e.2 :=
    dedupe_fold_wellKeyed (by simp)
  have hnd : ((rows.foldl dedupeStep []).map Prod.fst).Nodup :=
    dedupe_fold_nodup (by simp)
  have hlook : ∀ r ∈ dedupeCheapest rows,
      foldKey (rowKey r) none rows = some r := by
    intro r hr
    rw [dedupeCheapest] at hr
    obtain ⟨e, he, rfl⟩ := List.mem_map.mp hr
    have hk := hwk e he
    have he2 : (rowKey e.2, e.2) ∈ rows.foldl dedupeStep [] := by
      rw [← hk]
      exact he
    have := alookup_of_mem_nodup hnd he2
    rw [dedupe_fold_lookup] at this
    rw [alookup] at this
    exact this
  refine ⟨?_, ?_, ?_⟩
  · rw [dedupeCheapest, List.pairwise_map]
    have hpair : (rows.foldl dedupeStep []).Pairwise
        (fun e1 e2 => e1.1 ≠ e2.1) := by
      rw [← List.pairwise_map]
      exact hnd
    refine hpair.imp_of_mem ?_
    intro e1 e2 h1 h2 hne
    rw [hwk e1 h1, hwk e2 h2] at hne
    exact hne
  · intro r hr r' hr' hk'
    exact ((foldKey_min (rowKey r) rows none r (hlook r hr)).1) r' hr' hk'
  · intro r hr
    rcases foldKey_first (rowKey r) rows none r (hlook r hr) with
      ⟨ho, _⟩ | ⟨l₁, l₂, hsplit, _, hstrict, _⟩
    · cases ho
    · exact ⟨l₁, l₂, hsplit, hstrict⟩

/-- Witness for C3 at a concrete row list: of the two rows whose store name
lowercases to "store", the kept one costs 2 and the discarded one 3. -/
theorem claim_C3_witness :
    ({ store := "STORE", price := 2, location := "…", lat := none, lng := none,
        distance_km := none } : Row).price
      ≤ ({ store := "Store", price := 3, location := "…", lat := none,
           lng := none, distance_km := none } : Row).price :=
  (claim_C3
    [ { store := "Store", price := 3, location := "…", lat := none, lng := none,
        distance_km := none },
      { store := "Bmart", price := 5, location := "…", lat := none, lng := none,
        distance_km := none },
      { store := "STORE", price := 2, location := "…", lat := none, lng := none,
        distance_km := none } ]).2.1
    { store := "STORE", price := 2, location := "…", lat := none, lng := none,
      distance_km := none } (by decide)
    { store := "Store", price := 3, location := "…", lat := none, lng := none,
      distance_km := none } (by decide) (by decide)

/-! ## C4: idempotence of `normalizeStoreName` -/

theorem upChar_spec (c : Char) :
    upChar c = c ∨ (c, upChar c) ∈ asciiCasePairs := by
  unfold upChar
  split <;> first | (left; rfl) | (right; decide)

set_option maxHeartbeats 1000000 in
theorem isWS_upChar (c : Char) : isWSChar (upChar c) = isWSChar c := by
  rcases upChar_spec c with h | h
  · rw [h]
  · have hp : ∀ p ∈ asciiCasePairs, isWSChar p.2 = isWSChar p.1 := by decide
    exact hp _ h

set_option maxHeartbeats 1000000 in
theorem hyphen_upChar {c : Char} (h : upChar c = '-') : c = '-' := by
  rcases upChar_spec c with h2 | h2
  · rw [← h2]
    exact h
  · have hp : ∀ p ∈ asciiCasePairs, p.2 ≠ '-' := by decide
    exact absurd h (hp _ h2)

set_option maxHeartbeats 1000000 in
theorem isWordChar_upChar (c : Char) : isWordChar (upChar c) = isWordChar c := by
  rcases upChar_spec c with h | h
  · rw [h]
  · have hp : ∀ p ∈ asciiCasePairs, isWordChar p.2 = isWordChar p.1 := by decide
    exact hp _ h

set_option maxHeartbeats 1000000 in
theorem upChar_upChar (c : Char) : upChar (upChar c) = upChar c := by
  rcases upChar_spec c with h | h
  · simp only [h]
  · have hp : ∀ p ∈ asciiCasePairs, upChar p.2 = p.2 := by decide
    exact hp _ h

set_option maxHeartbeats 1000000 in
theorem lowChar_upChar (c : Char) : lowChar (upChar c) = lowChar c := by
  rcases upChar_spec c with h | h
  · rw [h]
  · have hp : ∀ p ∈ asciiCasePairs, lowChar p.2 = lowChar p.1 := by decide
    exact hp _ h

theorem title_map_lowChar (pw : Bool) (l : List Char) :
    lowerStr (titleCase pw l) = lowerStr l := by
  induction l generalizing pw with
  | nil => rfl
  | cons c rest ih =>
    simp only [titleCase, lowerStr, List.map_cons]
    rw [← lowerStr, ← lowerStr, ih (isWordChar c)]
    by_cases h : (!pw && isWordChar c) = true
    · rw [if_pos h, lowChar_upChar]
    · rw [if_neg h]

theorem title_hyphenFree {l : List Char} (pw : Bool) (h : '-' ∉ l) :
    '-' ∉ titleCase pw l := by
  induction l generalizing pw with
  | nil => simp [titleCase]
  | cons c rest ih =>
    simp only [titleCase]
    intro hm
    rcases List.mem_cons.mp hm with h2 | h2
    · by_cases hc : (!pw && isWordChar c) = true
      · rw [if_pos hc] at h2
        exact h (h2 ▸ (hyphen_upChar h2.symm) ▸ List.mem_cons_self c rest)
      · rw [if_neg hc] at h2
        exact h (h2 ▸ List.mem_cons_self c rest)
    · exact ih (isWordChar c) (fun hmem => h (List.mem_cons_of_mem c hmem)) h2

theorem title_idem (pw : Bool) (l : List Char) :
    titleCase pw (titleCase pw l) = titleCase pw l := by
  induction l generalizing pw with
  | nil => rfl
  | cons c rest ih =>
    by_cases h : (!pw && isWordChar c) = true
    · have e1 : titleCase pw (c :: rest)
          = upChar c :: titleCase (isWordChar c) rest := by
        simp only [titleCase, if_pos h]
      have hcond : (!pw && isWordChar (upChar c)) = true := by
        rw [isWordChar_upChar]
        exact h
      have e2 : titleCase pw (upChar c :: titleCase (isWordChar c) rest)
          = upChar (upChar c) ::
            titleCase (isWordChar (upChar c)) (titleCase (isWordChar c) rest) := by
        simp only [titleCase, if_pos hcond]
      rw [e1, e2, upChar_upChar, isWordChar_upChar, ih (isWordChar c)]
    · have e1 : titleCase pw (c :: rest)
          = c :: titleCase (isWordChar c) rest := by
        simp only [titleCase, if_neg h]
      have e2 : titleCase pw (c :: titleCase (isWordChar c) rest)
          = c :: titleCase (isWordChar c) (titleCase (isWordChar c) rest) := by
        simp only [titleCase, if_neg h]
      rw [e1, e2, ih (isWordChar c)]

theorem title_headNotWS {l : List Char} (pw : Bool) (h : headNotWS l = true) :
    headNotWS (titleCase pw l) = true := by
  cases l with
  | nil => rfl
  | cons c rest =>
    simp only [titleCase, headNotWS] at h ⊢
    by_cases hc : (!pw && isWordChar c) = true
    · rw [if_pos hc, isWS_upChar]
      exact h
    · rw [if_neg hc]
      exact h

theorem title_lastNotWS {l : List Char} (pw : Bool) (h : lastNotWS l = true) :
    lastNotWS (titleCase pw l) = true := by
  induction l generalizing pw with
  | nil => rfl
  | cons c rest ih =>
    cases rest with
    | nil =>
      simp only [titleCase, lastNotWS] at h ⊢
      by_cases hc : (!pw && isWordChar c) = true
      · rw [if_pos hc, isWS_upChar]
        exact h
      · rw [if_neg hc]
        exact h
    | cons d rest2 =>
      have h2 : lastNotWS (d :: rest2) = true := h
      have ihd := ih (isWordChar c) h2
      have e1 : titleCase pw (c :: d :: rest2)
          = (if (!pw && isWordChar c) = true then upChar c else c) ::
            (if (!(isWordChar c) && isWordChar d) = true then upChar d else d) ::
            titleCase (isWordChar d) rest2 := by
        simp only [titleCase]
      have e2 : titleCase (isWordChar c) (d :: rest2)
          = (if (!(isWordChar c) && isWordChar d) = true then upChar d else d) ::
            titleCase (isWordChar d) rest2 := by
        simp only [titleCase]
      rw [e2] at ihd
      rw [e1, lastNotWS]
      exact ihd

theorem title_wsRunFree {l : List Char} (pw : Bool) (h : wsRunFree l = true) :
    wsRunFree (titleCase pw l) = true := by
  induction l generalizing pw with
  | nil => rfl
  | cons c rest ih =>
    cases rest with
    | nil => simp [titleCase, wsRunFree]
    | cons d rest2 =>
      rw [wsRunFree, Bool.and_eq_true] at h
      simp only [titleCase]
      rw [wsRunFree, Bool.and_eq_true]
      constructor
      · have hc : isWSChar (if (!pw && isWordChar c) = true then upChar c else c)
            = isWSChar c := by
          by_cases hc2 : (!pw && isWordChar c) = true
          · rw [if_pos hc2, isWS_upChar]
          · rw [if_neg hc2]
        have hd : isWSChar (if (!(isWordChar c) && isWordChar d) = true then
            upChar d else d) = isWSChar d := by
          by_cases hd2 : (!(isWordChar c) && isWordChar d) = true
          · rw [if_pos hd2, isWS_upChar]
          · rw [if_neg hd2]
        rw [hc, hd]
        exact h.1
      · have := ih (isWordChar c) h.2
        simp only [titleCase] at this
        exact this

theorem wsRunFree_tail {x : Char} {ys : List Char}
    (h : wsRunFree (x :: ys) = true) : wsRunFree ys = true := by
  cases ys with
  | nil => rfl
  | cons y r =>
    rw [wsRunFree, Bool.and_eq_true] at h
    exact h.2

theorem wsRunFree_cons_of {x : Char} {ys : List Char} (hys : wsRunFree ys = true)
    (h : isWSChar x = false ∨ headNotWS ys = true) :
    wsRunFree (x :: ys) = true := by
  cases ys with
  | nil => rfl
  | cons y r =>
    rw [wsRunFree, Bool.and_eq_true]
    refine ⟨?_, hys⟩
    rcases h with h | h
    · rw [h]
      rfl
    · rw [headNotWS] at h
      have hy : isWSChar y = false := by simpa using h
      rw [hy]
      simp

theorem collapse_invariant (l : List Char) :
    (wsRunFree (collapseAux .many l) = true
      ∧ headNotWS (collapseAux .many l) = true)
    ∧ wsRunFree (collapseAux .out l) = true
    ∧ ∀ c, wsRunFree (collapseAux (.one c) l) = true := by
  induction l with
  | nil => exact ⟨⟨rfl, rfl⟩, rfl, fun c => rfl⟩
  | cons x rest ih =>
    obtain ⟨⟨hm, hmh⟩, ho, hone⟩ := ih
    by_cases hx : isWSChar x = true
    · refine ⟨⟨?_, ?_⟩, ?_, ?_⟩
      · simp only [collapseAux, if_pos hx]
        exact hm
      · simp only [collapseAux, if_pos hx]
        exact hmh
      · simp only [collapseAux, if_pos hx]
        exact hone x
      · intro c
        simp only [collapseAux, if_pos hx]
        exact wsRunFree_cons_of hm (Or.inr hmh)
    · have hx' : isWSChar x = false := by simpa using hx
      refine ⟨⟨?_, ?_⟩, ?_, ?_⟩
      · simp only [collapseAux, if_neg hx]
        exact wsRunFree_cons_of ho (Or.inl hx')
      · simp only [collapseAux, if_neg hx, headNotWS]
        rw [hx']
        rfl
      · simp only [collapseAux, if_neg hx]
        exact wsRunFree_cons_of ho (Or.inl hx')
      · intro c
        simp only [collapseAux, if_neg hx]
        refine wsRunFree_cons_of ?_ (Or.inr ?_)
        · exact wsRunFree_cons_of ho (Or.inl hx')
        · rw [headNotWS, hx']
          rfl

theorem collapse_wsRunFree (l : List Char) : wsRunFree (collapseWS l) = true :=
  (collapse_invariant l).2.1

theorem dropWhile_wsRunFree {l : List Char} (h : wsRunFree l = true) :
    wsRunFree (l.dropWhile isWSChar) = true := by
  induction l with
  | nil => rfl
  | cons c rest ih =>
    rw [List.dropWhile_cons]
    by_cases hc : isWSChar c = true
    · rw [if_pos hc]
      exact ih (wsRunFree_tail h)
    · rw [if_neg hc]
      exact h

theorem dropWhile_headNotWS (l : List Char) :
    headNotWS (l.dropWhile isWSChar) = true := by
  induction l with
  | nil => rfl
  | cons c rest ih =>
    rw [List.dropWhile_cons]
    by_cases hc : isWSChar c = true
    · rw [if_pos hc]
      exact ih
    · rw [if_neg hc, headNotWS]
      have hc' : isWSChar c = false := by simpa using hc
      rw [hc']
      rfl

theorem dropEnd_head {l : List Char} {y : Char} {ys : List Char}
    (h : dropEndWS l = y :: ys) : ∃ t, l = y :: t := by
  cases l with
  | nil => simp [dropEndWS] at h
  | cons c rest =>
    simp only [dropEndWS] at h
    cases hd : dropEndWS rest with
    | nil =>
      rw [hd] at h
      by_cases hc : isWSChar c = true
      · rw [if_pos hc] at h
        cases h
      · rw [if_neg hc] at h
        obtain ⟨rfl, _⟩ := List.cons.inj h
        exact ⟨rest, rfl⟩
    | cons z zs =>
      rw [hd] at h
      obtain ⟨rfl, _⟩ := List.cons.inj h
      exact ⟨rest, rfl⟩

theorem dropEnd_wsRunFree {l : List Char} (h : wsRunFree l = true) :
    wsRunFree (dropEndWS l) = true := by
  induction l with
  | nil => rfl
  | cons c rest ih =>
    simp only [dropEndWS]
    cases hd : dropEndWS rest with
    | nil =>
      by_cases hc : isWSChar c = true
      · rw [if_pos hc]
        rfl
      · rw [if_neg hc]
        rfl
    | cons z zs =>
      have hws := ih (wsRunFree_tail h)
      rw [hd] at hws
      obtain ⟨t, ht⟩ := dropEnd_head hd
      subst ht
      rw [wsRunFree, Bool.and_eq_true] at h
      by_cases hcw : isWSChar c = true
      · have hz : isWSChar z = false := by
          have h1 := h.1
          rw [hcw] at h1
          simpa using h1
        exact wsRunFree_cons_of hws (Or.inr (by rw [headNotWS, hz]; rfl))
      · have hc' : isWSChar c = false := by simpa using hcw
        exact wsRunFree_cons_of hws (Or.inl hc')

theorem dropEnd_lastNotWS (l : List Char) : lastNotWS (dropEndWS l) = true := by
  induction l with
  | nil => rfl
  | cons c rest ih =>
    simp only [dropEndWS]
    cases hd : dropEndWS rest with
    | nil =>
      by_cases hc : isWSChar c = true
      · rw [if_pos hc]
        rfl
      · rw [if_neg hc, lastNotWS]
        have hc' : isWSChar c = false := by simpa using hc
        rw [hc']
        rfl
    | cons z zs =>
      rw [hd] at ih
      rw [lastNotWS]
      exact ih

theorem dropEnd_headNotWS {l : List Char} (h : headNotWS l = true) :
    headNotWS (dropEndWS l) = true := by
  cases l with
  | nil => rfl
  | cons c rest =>
    simp only [dropEndWS]
    cases hd : dropEndWS rest with
    | nil =>
      by_cases hc : isWSChar c = true
      · rw [if_pos hc]
        rfl
      · rw [if_neg hc]
        exact h
    | cons z zs => exact h

theorem dropEnd_sublist (l : List Char) : (dropEndWS l).Sublist l := by
  induction l with
  | nil => simp [dropEndWS]
  | cons c rest ih =>
    simp only [dropEndWS]
    cases hd : dropEndWS rest with
    | nil =>
      by_cases hc : isWSChar c = true
      · rw [if_pos hc]
        exact List.nil_sublist _
      · rw [if_neg hc]
        exact (List.nil_sublist rest).cons₂ c
    | cons z zs =>
      rw [hd] at ih
      exact ih.cons₂ c

theorem dropWhile_fix {l : List Char} (h : headNotWS l = true) :
    l.dropWhile isWSChar = l := by
  cases l with
  | nil => rfl
  | cons c rest =>
    have hc : isWSChar c = false := by
      rw [headNotWS] at h
      simpa using h
    rw [List.dropWhile_cons, if_neg (by simp [hc])]

theorem dropEndWS_cons_of_ne {c : Char} {rest : List Char}
    (h : dropEndWS rest ≠ []) : dropEndWS (c :: rest) = c :: dropEndWS rest := by
  cases hd : dropEndWS rest with
  | nil => exact absurd hd h
  | cons z zs => simp only [dropEndWS, hd]

theorem dropEnd_fix {l : List Char} (h : lastNotWS l = true) : dropEndWS l = l := by
  induction l with
  | nil => rfl
  | cons c rest ih =>
    cases rest with
    | nil =>
      simp only [dropEndWS]
      have hc : isWSChar c = false := by
        rw [lastNotWS] at h
        simpa using h
      rw [if_neg (by simp [hc])]
    | cons d rest2 =>
      have htail : lastNotWS (d :: rest2) = true := h
      have ih2 := ih htail
      have hne : dropEndWS (d :: rest2) ≠ [] := by
        rw [ih2]
        simp
      rw [dropEndWS_cons_of_ne hne, ih2]

theorem collapseOut_cons_ws {x : Char} {rest : List Char} (hx : isWSChar x = true)
    (hrest : headNotWS rest = true) :
    collapseAux .out (x :: rest) = x :: collapseAux .out rest := by
  simp only [collapseAux, if_pos hx]
  cases rest with
  | nil => rfl
  | cons y ys =>
    have hy : isWSChar y = false := by
      rw [headNotWS] at hrest
      simpa using hrest
    simp only [collapseAux, if_neg (by simp [hy] : ¬isWSChar y = true)]

theorem collapseOut_fix : ∀ {l : List Char}, wsRunFree l = true →
    collapseAux WSState.out l = l := by
  intro l
  induction l with
  | nil => intro _; rfl
  | cons x rest ih =>
    intro h
    by_cases hx : isWSChar x = true
    · have hrest : headNotWS rest = true := by
        cases rest with
        | nil => rfl
        | cons y ys =>
          rw [wsRunFree, Bool.and_eq_true] at h
          have h1 := h.1
          rw [hx] at h1
          rw [headNotWS]
          have hy : isWSChar y = false := by simpa using h1
          rw [hy]
          rfl
      rw [collapseOut_cons_ws hx hrest, ih (wsRunFree_tail h)]
    · simp only [collapseAux, if_neg hx]
      rw [ih (wsRunFree_tail h)]

theorem collapse_fix {l : List Char} (h : wsRunFree l = true) :
    collapseWS l = l := collapseOut_fix h

theorem mapHyphen_noHyphen (l : List Char) : '-' ∉ mapHyphen l := by
  intro h
  obtain ⟨a, _, ha⟩ := List.mem_map.mp h
  by_cases h2 : a = '-'
  · rw [if_pos h2] at ha
    exact absurd ha (by decide)
  · rw [if_neg h2] at ha
    exact h2 ha

theorem mapHyphen_id {l : List Char} (h : '-' ∉ l) : mapHyphen l = l := by
  induction l with
  | nil => rfl
  | cons c rest ih =>
    show (if c = '-' then ' ' else c) :: mapHyphen rest = c :: rest
    by_cases hc : c = '-'
    · exfalso
      refine h ?_
      rw [hc]
      exact List.mem_cons_self _ _
    · rw [if_neg hc, ih (fun hm => h (List.mem_cons_of_mem c hm))]

theorem rmCorpA_sublist : ∀ (l : List Char) (k : Nat) (pw : Bool),
    (rmCorpA k pw l).Sublist l := by
  intro l
  induction l with
  | nil =>
    intro k pw
    cases k <;> simp [rmCorpA]
  | cons c rest ih =>
    intro k pw
    cases k with
    | zero =>
      by_cases hp : pw = true
      · simp only [rmCorpA, if_pos hp]
        exact (ih 0 (isWordChar c)).cons₂ c
      · simp only [rmCorpA, if_neg hp]
        rcases hm : corpMatch (c :: rest) with _ | ⟨m, pw2⟩ <;> simp only [hm]
        · exact (ih 0 (isWordChar c)).cons₂ c
        · exact (ih (m - 1) pw2).cons c
    | succ k2 =>
      simp only [rmCorpA]
      exact (ih k2 pw).cons c

theorem collapse_mem_nonws : ∀ (l : List Char) (st : WSState) (c : Char),
    (∀ c₀, st = WSState.one c₀ → isWSChar c₀ = true) →
    c ∈ collapseAux st l → isWSChar c = false → c ∈ l := by
  intro l
  induction l with
  | nil =>
    intro st c hst hmem hc
    cases st with
    | out => simp [collapseAux] at hmem
    | one c₀ =>
      simp [collapseAux] at hmem
      subst hmem
      rw [hst c rfl] at hc
      cases hc
    | many => simp [collapseAux] at hmem
  | cons x rest ih =>
    intro st c hst hmem hc
    cases st with
    | out =>
      by_cases hx : isWSChar x = true
      · simp only [collapseAux, if_pos hx] at hmem
        refine List.mem_cons_of_mem x (ih _ c ?_ hmem hc)
        intro c₀ he
        injection he with h2
        rw [← h2]
        exact hx
      · simp only [collapseAux, if_neg hx] at hmem
        rcases List.mem_cons.mp hmem with rfl | h2
        · exact List.mem_cons_self _ _
        · exact List.mem_cons_of_mem x (ih _ c (fun _ he => by cases he) h2 hc)
    | one c₀ =>
      have hc₀ := hst c₀ rfl
      by_cases hx : isWSChar x = true
      · simp only [collapseAux, if_pos hx] at hmem
        rcases List.mem_cons.mp hmem with rfl | h2
        · exact absurd hc (by decide)
        · exact List.mem_cons_of_mem x (ih _ c (fun _ he => by cases he) h2 hc)
      · simp only [collapseAux, if_neg hx] at hmem
        rcases List.mem_cons.mp hmem with rfl | h2
        · rw [hc] at hc₀
          cases hc₀
        · rcases List.mem_cons.mp h2 with rfl | h3
          · exact List.mem_cons_self _ _
          · exact List.mem_cons_of_mem x (ih _ c (fun _ he => by cases he) h3 hc)
    | many =>
      by_cases hx : isWSChar x = true
      · simp only [collapseAux, if_pos hx] at hmem
        exact List.mem_cons_of_mem x (ih _ c (fun _ he => by cases he) hmem hc)
      · simp only [collapseAux, if_neg hx] at hmem
        rcases List.mem_cons.mp hmem with rfl | h2
        · exact List.mem_cons_self _ _
        · exact List.mem_cons_of_mem x (ih _ c (fun _ he => by cases he) h2 hc)

theorem dropWhileWS_sublist (l : List Char) :
    (l.dropWhile isWSChar).Sublist l := by
  induction l with
  | nil => simp
  | cons c rest ih =>
    rw [List.dropWhile_cons]
    by_cases hc : isWSChar c = true
    · rw [if_pos hc]
      exact ih.cons c
    · rw [if_neg hc]

/-- C4 fails on the code: `normalizeStoreName` is not idempotent.  On
`"a.com.com"` the first pass strips one `.com` suffix and then title-cases
the remaining `a.com` to `"A.Com"`; the second pass strips the re-exposed
(case-insensitive) `.Com` suffix, giving `"A"`. -/
theorem claim_C4_counterexample :
    normalizeStoreName "a.com.com" = "A.Com"
    ∧ normalizeStoreName (normalizeStoreName "a.com.com") = "A"
    ∧ normalizeStoreName (normalizeStoreName "a.com.com")
        ≠ normalizeStoreName "a.com.com" :=
  ⟨by decide, by decide, by decide⟩

theorem data_mk (l : List Char) : (String.mk l).data = l := rfl

set_option maxHeartbeats 4000000 in
/-- C4 amended: normalization is idempotent for every input whose canonical
name is left unchanged by the three removal stages — the TLD-suffix strip,
the supercentre-token removal and the corporate-suffix removal.  (The
counterexample `a.com.com` violates the first condition: its canonical name
`A.Com` still carries a TLD suffix.)  Under these conditions the whitespace
cleanup, trim, hyphen replacement, brand overrides and title-casing are all
proved stable on the canonical name, so a second pass returns it
unchanged. -/
theorem claim_C4 (x : String)
    (h1 : stripTLD (normalizeStoreName x).data = (normalizeStoreName x).data)
    (h2 : removeSuper (normalizeStoreName x).data = (normalizeStoreName x).data)
    (h3 : rmCorpAux false (normalizeStoreName x).data
        = (normalizeStoreName x).data) :
    normalizeStoreName (normalizeStoreName x) = normalizeStoreName x := by
  have hdata : (normalizeStoreName x).data = normChars x.data := by
    rw [normalizeStoreName]
  rw [hdata] at h1 h2 h3
  suffices h : normChars (normChars x.data) = normChars x.data by
    rw [normalizeStoreName, normalizeStoreName, data_mk, h]
  set z := trimWS (collapseWS (rmCorpAux false (mapHyphen (removeSuper
    (stripTLD x.data))))) with hzdef
  have hy : normChars x.data = titleCase false (applyOverrides z) := by
    rw [normChars, ← hzdef]
  rw [hy] at h1 h2 h3 ⊢
  have hz_wsrf : wsRunFree z = true := by
    rw [hzdef, trimWS]
    exact dropEnd_wsRunFree (dropWhile_wsRunFree (collapse_wsRunFree _))
  have hz_head : headNotWS z = true := by
    rw [hzdef, trimWS]
    exact dropEnd_headNotWS (dropWhile_headNotWS _)
  have hz_last : lastNotWS z = true := by
    rw [hzdef, trimWS]
    exact dropEnd_lastNotWS _
  have hz_hyph : '-' ∉ z := by
    rw [hzdef, trimWS]
    intro hmem
    have hm2 := (dropWhileWS_sublist _).mem ((dropEnd_sublist _).mem hmem)
    have hm3 : '-' ∈ rmCorpAux false (mapHyphen (removeSuper (stripTLD x.data))) :=
      collapse_mem_nonws _ .out '-' (fun _ he => by cases he) hm2 (by decide)
    have hm4 : '-' ∈ mapHyphen (removeSuper (stripTLD x.data)) :=
      (rmCorpA_sublist _ 0 false).mem hm3
    exact mapHyphen_noHyphen _ hm4
  by_cases t1 : containsCI "walmart".data z = true
  · have hov : applyOverrides z = "Walmart".data := by
      simp only [applyOverrides, if_pos t1]
      all_goals decide
    rw [hov]
    decide
  by_cases t2 : containsCI "amazon".data z = true
  · have hov : applyOverrides z = "Amazon".data := by
      simp only [applyOverrides, if_neg t1, if_pos t2]
      all_goals decide
    rw [hov]
    decide
  by_cases t3 : containsCI "costco".data z = true
  · have hov : applyOverrides z = "Costco".data := by
      simp only [applyOverrides, if_neg t1, if_neg t2, if_pos t3]
      all_goals decide
    rw [hov]
    decide
  by_cases t4 : containsToksCI ["london".data, "drugs".data] z = true
  · have hov : applyOverrides z = "London Drugs".data := by
      simp only [applyOverrides, if_neg t1, if_neg t2, if_neg t3, if_pos t4]
      all_goals decide
    rw [hov]
    decide
  by_cases t5 : containsToksCI ["save".data, "on".data, "foods".data] z = true
  · have hov : applyOverrides z = "Save On Foods".data := by
      simp only [applyOverrides, if_neg t1, if_neg t2, if_neg t3, if_neg t4,
        if_pos t5]
      all_goals decide
    rw [hov]
    decide
  by_cases t6 : containsCI "superstore".data z = true
  · have hov : applyOverrides z = "Superstore".data := by
      simp only [applyOverrides, if_neg t1, if_neg t2, if_neg t3, if_neg t4,
        if_neg t5, if_pos t6]
    rw [hov]
    decide
  · have hov : applyOverrides z = z := by
      simp only [applyOverrides, if_neg t1, if_neg t2, if_neg t3, if_neg t4,
        if_neg t5, if_neg t6]
    rw [hov] at h1 h2 h3 ⊢
    have hy_wsrf : wsRunFree (titleCase false z) = true :=
      title_wsRunFree false hz_wsrf
    have hy_head : headNotWS (titleCase false z) = true :=
      title_headNotWS false hz_head
    have hy_last : lastNotWS (titleCase false z) = true :=
      title_lastNotWS false hz_last
    have hy_hyph : '-' ∉ titleCase false z := title_hyphenFree false hz_hyph
    have hlow := title_map_lowChar false z
    show titleCase false (applyOverrides (trimWS (collapseWS (rmCorpAux false
      (mapHyphen (removeSuper (stripTLD (titleCase false z))))))))
      = titleCase false z
    rw [h1, h2, mapHyphen_id hy_hyph, h3, collapse_fix hy_wsrf, trimWS,
      dropWhile_fix hy_head, dropEnd_fix hy_last]
    have t1' : ¬containsCI "walmart".data (titleCase false z) = true := by
      show ¬containsSub "walmart".data (lowerStr (titleCase false z)) = true
      rw [hlow]
      exact t1
    have t2' : ¬containsCI "amazon".data (titleCase false z) = true := by
      show ¬containsSub "amazon".data (lowerStr (titleCase false z)) = true
      rw [hlow]
      exact t2
    have t3' : ¬containsCI "costco".data (titleCase false z) = true := by
      show ¬containsSub "costco".data (lowerStr (titleCase false z)) = true
      rw [hlow]
      exact t3
    have t4' : ¬containsToksCI ["london".data, "drugs".data]
        (titleCase false z) = true := by
      show ¬containsToksAux ["london".data, "drugs".data]
        (lowerStr (titleCase false z)) = true
      rw [hlow]
      exact t4
    have t5' : ¬containsToksCI ["save".data, "on".data, "foods".data]
        (titleCase false z) = true := by
      show ¬containsToksAux ["save".data, "on".data, "foods".data]
        (lowerStr (titleCase false z)) = true
      rw [hlow]
      exact t5
    have t6' : ¬containsCI "superstore".data (titleCase false z) = true := by
      show ¬containsSub "superstore".data (lowerStr (titleCase false z)) = true
      rw [hlow]
      exact t6
    have hov2 : applyOverrides (titleCase false z) = titleCase false z := by
      simp only [applyOverrides, if_neg t1', if_neg t2', if_neg t3', if_neg t4',
        if_neg t5', if_neg t6']
    rw [hov2, title_idem]

/-- Witness for C4 at a concrete label: the canonical name of `walmart.ca`
is `Walmart`, which carries no TLD suffix and no removable token, so a
second normalization returns it unchanged. -/
theorem claim_C4_witness :
    normalizeStoreName (normalizeStoreName "walmart.ca")
      = normalizeStoreName "walmart.ca" :=
  claim_C4 "walmart.ca" (by decide) (by decide) (by decide)
